import Mathlib

/-!
gtb, the Go tool builder.

A shallow embedding of `main.go` (the scheduler loop of `toolBuild`, `getWork`,
`basename`, `Builder.Build`, `Builder.expandVars`, `Builder.cloneAndBuild`) and the
properties of it that are proved.

A Go string is the list of its characters (the code looks only for ASCII characters,
which are single bytes of a UTF-8 string); a Go `map[string]V` is the list of its
entries. Subprocesses, the file system, the load average and the Go scheduler are the
environment: their results are parameters of the functions or events of the
transition system. Logging is left out, except for the build warnings of `toolBuild`.
-/

namespace Gtb

/-! ## Strings and maps -/

/-- Go string, as the list of its characters. -/
abbrev GoString := List Char

/-- Go map from strings to `V`, as the list of its entries. -/
abbrev GoMap (V : Type) := List (GoString × V)

/-- Map read `m[k]`, with the comma-ok result as an option. -/
def GoMap.get {V : Type} (m : GoMap V) (k : GoString) : Option V :=
  (m.find? (fun e => e.1 == k)).map (fun e => e.2)

/-- Map write `m[k] = v`. -/
def GoMap.set {V : Type} (m : GoMap V) (k : GoString) (v : V) : GoMap V :=
  match m with
  | [] => [(k, v)]
  | e :: rest => if e.1 == k then (k, v) :: rest else e :: GoMap.set rest k v

/-- Builtin `delete(m, k)`. -/
def GoMap.delete {V : Type} (m : GoMap V) (k : GoString) : GoMap V :=
  m.filter (fun e => e.1 != k)

/-- Go `strings.Split(s, sep)` for a separator of one character (the two call sites of
`main.go` pass "/" and " "): the substrings between the separators, one more than there
are separators, so never an empty slice. -/
def Split (s : GoString) (sep : Char) : List GoString :=
  match s with
  | [] => [[]]
  | c :: cs =>
    if c = sep then [] :: Split cs sep
    else
      match Split cs sep with
      | [] => [[c]]
      | p :: ps => (c :: p) :: ps

/-! ## Configuration -/

/-- The `Tool` struct of `main.go`. -/
structure Tool where
  Cmd : GoString
  Clone : Bool
  Build : List GoString
deriving DecidableEq, Repr

/-- The `Builder` struct of `main.go`. -/
structure Builder where
  outputDir : GoString
  tmpDir : GoString
deriving DecidableEq, Repr

/-! ## getWork -/

/-- The `want` set that `getWork` builds from its arguments (`want[tool] = true`). -/
def wantOf (args : List GoString) : GoMap Bool :=
  args.foldl (fun want tool => want.set tool true) []

/-- The function `getWork` of `main.go`: with no arguments the map is returned as it is;
otherwise every key of the map is visited and the entry is deleted when `want[name]` is
false (a missing key reads as false). -/
def getWork (tools : GoMap Tool) (args : List GoString) : GoMap Tool :=
  if args.length = 0 then tools
  else
    let want := wantOf args
    (tools.map (fun e => e.1)).foldl
      (fun t name => if !((want.get name).getD false) then t.delete name else t) tools

/-! ## basename -/

/-- The function `basename` of `main.go`: `parts[len(parts)-1]` of the split on "/".
The index is always in range, since `Split` never returns an empty list. -/
def basename (name : GoString) : GoString :=
  let parts := Split name '/'
  parts.getD (parts.length - 1) []

/-- A version segment: the letter v followed by one or more decimal digits. -/
def isVersionSegment (seg : GoString) : Bool :=
  match seg with
  | 'v' :: d :: ds => (d :: ds).all Char.isDigit
  | _ => false

/-! ## Standard-library functions used by the builder -/

/-- Go `filepath.Base` on a Unix system: "." for the empty path; otherwise trailing
separators are stripped and the text after the last remaining separator is returned,
or "/" when nothing is left. -/
def Base (path : GoString) : GoString :=
  if path = [] then ['.']
  else
    let stripped := (path.reverse.dropWhile (fun c => c == '/')).reverse
    let last := (stripped.reverse.takeWhile (fun c => c != '/')).reverse
    if last = [] then ['/'] else last

/-- Go `isShellSpecialVar` of package `os`. -/
def isShellSpecialVar (c : Char) : Bool :=
  c ∈ ['*', '#', '$', '@', '!', '?', '-', '0', '1', '2', '3', '4', '5', '6', '7', '8', '9']

/-- Go `isAlphaNum` of package `os`: an ASCII letter, digit or underscore. -/
def isAlphaNum (c : Char) : Bool :=
  c == '_' || ('0' ≤ c && c ≤ '9') || ('a' ≤ c && c ≤ 'z') || ('A' ≤ c && c ≤ 'Z')

/-- Go `getShellName` of package `os`, called on the text after a "$": the name that
begins the text and the number of characters consumed. `os.Expand` calls it only on a
non-empty text, so the first case does not occur. -/
def getShellName (s : GoString) : GoString × Nat :=
  match s with
  | [] => ([], 0)
  | c :: rest =>
    if c = '{' then
      match rest with
      | c1 :: c2 :: _ =>
        if isShellSpecialVar c1 && c2 == '}' then ([c1], 3) else scanBrace rest
      | _ => scanBrace rest
    else if isShellSpecialVar c then ([c], 1)
    else
      let name := (c :: rest).takeWhile isAlphaNum
      (name, name.length)
where
  /-- The scan to the closing brace; `rest` is the text after the opening brace. -/
  scanBrace (rest : GoString) : GoString × Nat :=
    let body := rest.takeWhile (fun c => c != '}')
    if body.length < rest.length then
      if body = [] then ([], 2) else (body, body.length + 2)
    else ([], 1)

/-- The loop of Go `os.Expand`: text outside "$" references is copied; at a "$" that is
not the last character the name is read by `getShellName` and replaced. The fuel is the
length of the text, which every iteration shortens. -/
def expandLoop (mapping : GoString → GoString) : Nat → GoString → GoString
  | 0, s => s
  | _ + 1, [] => []
  | fuel + 1, c :: rest =>
    if c = '$' ∧ rest ≠ [] then
      let nw := getShellName rest
      let piece :=
        if nw.1 = [] ∧ 0 < nw.2 then []
        else if nw.1 = [] then [c]
        else mapping nw.1
      piece ++ expandLoop mapping fuel (rest.drop nw.2)
    else c :: expandLoop mapping fuel rest

/-- Go `os.Expand(s, mapping)`. -/
def Expand (s : GoString) (mapping : GoString → GoString) : GoString :=
  expandLoop mapping s.length s

/-- A shell identifier: a letter or underscore followed by letters, digits and
underscores. These are the variable names a "$name" reference can spell. -/
def isShellIdent (name : GoString) : Bool :=
  match name with
  | [] => false
  | c :: rest =>
    (c == '_' || ('a' ≤ c && c ≤ 'z') || ('A' ≤ c && c ≤ 'Z')) && rest.all isAlphaNum

/-! ## Builder -/

/-- The mapping closure of `expandVars`: OUTDIR is the output directory, every other
key the empty string. -/
def expandKey (b : Builder) (key : GoString) : GoString :=
  if key = "OUTDIR".toList then b.outputDir else []

/-- The method `Builder.expandVars` of `main.go`: split on " ", then expand every token
but the first. The split is never empty, so the first case does not occur. -/
def expandVars (b : Builder) (cmd : GoString) : List GoString :=
  match Split cmd ' ' with
  | [] => []
  | first :: rest => first :: rest.map (fun a => Expand a (expandKey b))

/-- A subprocess as `exec.Command` builds it: the argument vector (program first) and
the working directory, when one is set. -/
structure Command where
  argv : List GoString
  dir : Option GoString
deriving DecidableEq, Repr

/-- What running a subprocess gives: `Run` returns no error and the process state is a
success, `Run` returns no error but the process state is not a success, or `Run`
returns an error. -/
inductive RunResult where
  | ok
  | exitFailure
  | runError
deriving DecidableEq, Repr

/-- The errors a build returns. -/
inductive BuildErr where
  | invalidCmd (output : GoString)
  | creatingTmpDir
  | cloning (mod : GoString)
  | run (cmd : Command)
  | commandFailed (step : GoString)
  | creatingGoMod
deriving DecidableEq, Repr

/-- The operating system as the builder sees it: `mkdir dir pattern` is the directory
that `os.MkdirTemp` creates for a valid pattern (none when the creation fails),
`createFile fn` whether `go.mod` can be written, `run n cmd` the result of the
subprocess `cmd` when it is the `n`-th (from 0) that the job runs, and `join` is
`filepath.Join`. -/
structure World where
  mkdir : GoString → GoString → Option GoString
  createFile : GoString → Bool
  run : Nat → Command → RunResult
  join : GoString → GoString → GoString

/-- Go `os.MkdirTemp(dir, pattern)`: a pattern that holds a path separator is refused
before anything is created. -/
def MkdirTemp (w : World) (dir pattern : GoString) : Option GoString :=
  if pattern.any (fun c => c == '/') then none else w.mkdir dir pattern

/-- The subprocess that runs one build step in the scratch directory. -/
def stepCommand (b : Builder) (tmpdir step : GoString) : Command :=
  { argv := expandVars b step, dir := some tmpdir }

/-- The loop over the build steps in `cloneAndBuild`: each step is run in turn; the
first one whose `Run` fails or whose process state is not a success ends the loop with
an error. `n` is the number of subprocesses run before. The result is the error and
the subprocesses that were run, in order. -/
def runSteps (w : World) (b : Builder) (tmpdir : GoString) :
    Nat → List GoString → Option BuildErr × List Command
  | _, [] => (none, [])
  | n, step :: rest =>
    let cmd := stepCommand b tmpdir step
    match w.run n cmd with
    | RunResult.runError => (some (BuildErr.run cmd), [cmd])
    | RunResult.exitFailure => (some (BuildErr.commandFailed step), [cmd])
    | RunResult.ok =>
      let r := runSteps w b tmpdir (n + 1) rest
      (r.1, cmd :: r.2)

/-- Step `i` (from 0) of a list of build steps succeeds when it is run as subprocess
number `i + n` of its job: `Run` returns no error and the process state is a success. -/
def stepSucceeds (w : World) (b : Builder) (tmpdir : GoString) (steps : List GoString)
    (n i : Nat) : Prop :=
  ∀ step, steps[i]? = some step → w.run (i + n) (stepCommand b tmpdir step) = RunResult.ok

/-- The `git clone` subprocess of `cloneAndBuild`. -/
def cloneCommand (mod tmpdir : GoString) : Command :=
  { argv := ["git".toList, "clone".toList, "--depth".toList, "1".toList,
             "https://".toList ++ mod, tmpdir],
    dir := none }

/-- The `go build` subprocess of both build functions. -/
def goBuildCommand (mod tmpdir outputPath : GoString) : Command :=
  { argv := ["go".toList, "build".toList, "-o".toList, outputPath, mod],
    dir := some tmpdir }

/-- The `go get` subprocess of `goGetAndBuild`. -/
def goGetCommand (mod tmpdir : GoString) : Command :=
  { argv := ["go".toList, "get".toList, mod], dir := some tmpdir }

/-- The method `Builder.cloneAndBuild` of `main.go`: the error returned and the
subprocesses run, in order. The clone and the fallback `go build` fail when `Run`
returns an error; a build step fails also when its process state is not a success. -/
def cloneAndBuild (w : World) (b : Builder) (toolcfg : Tool)
    (mod tmpdir outputPath : GoString) : Option BuildErr × List Command :=
  let gitCmd := cloneCommand mod tmpdir
  if w.run 0 gitCmd = RunResult.runError then (some (BuildErr.cloning mod), [gitCmd])
  else if 0 < toolcfg.Build.length then
    let r := runSteps w b tmpdir 1 toolcfg.Build
    (r.1, gitCmd :: r.2)
  else
    let buildCmd := goBuildCommand mod tmpdir outputPath
    if w.run 1 buildCmd = RunResult.runError then
      (some (BuildErr.run buildCmd), [gitCmd, buildCmd])
    else (none, [gitCmd, buildCmd])

/-- The function `createGoMod` of `main.go`. -/
def createGoMod (w : World) (dir : GoString) : Option BuildErr :=
  if w.createFile (w.join dir "go.mod".toList) then none else some BuildErr.creatingGoMod

/-- The method `Builder.goGetAndBuild` of `main.go`. -/
def goGetAndBuild (w : World) (mod tmpdir outputPath : GoString) :
    Option BuildErr × List Command :=
  match createGoMod w tmpdir with
  | some e => (some e, [])
  | none =>
    let getCmd := goGetCommand mod tmpdir
    if w.run 0 getCmd = RunResult.runError then (some (BuildErr.run getCmd), [getCmd])
    else
      let buildCmd := goBuildCommand mod tmpdir outputPath
      if w.run 1 buildCmd = RunResult.runError then
        (some (BuildErr.run buildCmd), [getCmd, buildCmd])
      else (none, [getCmd, buildCmd])

/-- What one call of `Builder.Build` did: the error it returned, the scratch directory
it created (if any), the build function it invoked (true for `cloneAndBuild`, false
for `goGetAndBuild`) with the scratch directory and output path passed, and the
subprocesses run. -/
structure BuildRun where
  err : Option BuildErr
  scratch : Option GoString
  invoked : Option (Bool × GoString × GoString)
  commands : List Command
deriving DecidableEq, Repr

/-- The first lines of `Builder.Build`: the output name is the `Cmd` of the tool, or
`basename mod` when `Cmd` is empty; a `Cmd` that differs from its `filepath.Base` is
an error. -/
def outputName (mod : GoString) (toolcfg : Tool) : Except BuildErr GoString :=
  let output := toolcfg.Cmd
  if output.length = 0 then Except.ok (basename mod)
  else if Base output ≠ output then Except.error (BuildErr.invalidCmd output)
  else Except.ok output

/-- The method `Builder.Build` of `main.go`. -/
def Build (w : World) (b : Builder) (mod : GoString) (toolcfg : Tool) : BuildRun :=
  match outputName mod toolcfg with
  | Except.error e => { err := some e, scratch := none, invoked := none, commands := [] }
  | Except.ok output =>
    match MkdirTemp w b.tmpDir (output ++ ['-']) with
    | none =>
      { err := some BuildErr.creatingTmpDir, scratch := none, invoked := none, commands := [] }
    | some tmpdir =>
      let outputPath := w.join b.outputDir output
      let r :=
        if toolcfg.Clone then cloneAndBuild w b toolcfg mod tmpdir outputPath
        else goGetAndBuild w mod tmpdir outputPath
      { err := r.1, scratch := some tmpdir,
        invoked := some (toolcfg.Clone, tmpdir, outputPath), commands := r.2 }

/-! ## The scheduling loop of toolBuild

The loop of `toolBuild` (lines 104 to 136 of `main.go`) and the goroutines it starts,
as a transition system. The dispatcher is the goroutine that runs `toolBuild`; every
`go` statement adds a job goroutine. One event is one atomic statement of one of them;
which event comes next is up to the Go scheduler and the environment. -/

namespace toolBuild

/-- Where the dispatcher stands. -/
inductive Pc where
  /-- In the polling loop (lines 105 to 116) for the first pending entry. -/
  | poll
  /-- Past the `break`, before `atomic.AddInt32(&running, 1)`. -/
  | admitted
  /-- Before `waitgroup.Add(1)`. -/
  | counted
  /-- Before the `go` statement. -/
  | added
  /-- At `waitgroup.Wait()`, the range loop is over. -/
  | waiting
  /-- The call has returned: nil (`failed` false) or the error for the load average. -/
  | returned (failed : Bool)
deriving DecidableEq, Repr

/-- Where a job goroutine stands. -/
inductive Phase where
  /-- Started, `builder.Build` has not returned. -/
  | building
  /-- `Build` has returned (its error logged, the progress bar advanced), before
  `waitgroup.Done()`. -/
  | built
  /-- Past `waitgroup.Done()`, before `atomic.AddInt32(&running, -1)`. -/
  | signalled
  /-- Past the decrement: the goroutine is over. -/
  | exited
deriving DecidableEq, Repr

/-- A job goroutine: the entry of the job set it was started with, and its phase. -/
structure Job where
  name : GoString
  toolcfg : Tool
  phase : Phase
deriving DecidableEq, Repr

/-- The state of a run of the loop: the entries of the job set not yet handed to a
goroutine (in the order the range loop yields them), the dispatcher, the counter
`running`, the counter of the wait group, the goroutines started so far in the order of
their start, the names logged with a build warning, and the ticks of the progress bar. -/
structure Sched where
  pending : List (GoString × Tool)
  pc : Pc
  running : Int
  wg : Int
  jobs : List Job
  warnings : List GoString
  ticks : Nat
deriving DecidableEq, Repr

/-- An atomic step of the dispatcher or of job goroutine `i` (in order of start). -/
inductive Event where
  /-- One iteration of the polling loop; `load` is what `load.Avg()` gave, none for an
  error. -/
  | avg (load : Option ℚ)
  /-- The statement `atomic.AddInt32(&running, 1)`. -/
  | inc
  /-- The statement `waitgroup.Add(1)`. -/
  | add
  /-- The `go` statement. -/
  | spawn
  /-- The call `waitgroup.Wait()` returns, and `toolBuild` returns nil. -/
  | wait
  /-- The call `builder.Build` of goroutine `i` returns, with an error when `err`. -/
  | buildReturns (i : Nat) (err : Bool)
  /-- The statement `waitgroup.Done()` of goroutine `i`. -/
  | done (i : Nat)
  /-- The statement `atomic.AddInt32(&running, -1)` of goroutine `i`. -/
  | dec (i : Nat)
deriving DecidableEq, Repr

/-- The admission check of the polling loop,
`avg.Load1 <= 2*float64(cpus) && atomic.LoadInt32(&running) < 4`. -/
def admission (load : ℚ) (cpus : Int) (running : Int) : Bool :=
  decide (load ≤ 2 * (cpus : ℚ)) && decide (running < 4)

/-- The state in which the loop starts: nothing running, and the dispatcher at the first
entry of the job set, or at `waitgroup.Wait()` when the job set is empty. -/
def start (work : List (GoString × Tool)) : Sched :=
  { pending := work, pc := if work = [] then Pc.waiting else Pc.poll,
    running := 0, wg := 0, jobs := [], warnings := [], ticks := 0 }

/-- Goroutine `i` moves from phase `p` to phase `q`; none when there is no goroutine
`i` or it is not in phase `p`. -/
def advance (p q : Phase) : Nat → List Job → Option (List Job)
  | _, [] => none
  | 0, j :: js => if j.phase = p then some ({ j with phase := q } :: js) else none
  | i + 1, j :: js => (advance p q i js).map (fun js2 => j :: js2)

/-- One step of the transition system; none when the event cannot happen in the state. -/
def step (cpus : Int) (s : Sched) : Event → Option Sched
  | Event.avg load =>
    if s.pc = Pc.poll then
      match load with
      | none => some { s with pc := Pc.returned true }
      | some l => if admission l cpus s.running then some { s with pc := Pc.admitted } else some s
    else none
  | Event.inc =>
    if s.pc = Pc.admitted then some { s with pc := Pc.counted, running := s.running + 1 }
    else none
  | Event.add =>
    if s.pc = Pc.counted then some { s with pc := Pc.added, wg := s.wg + 1 } else none
  | Event.spawn =>
    if s.pc = Pc.added then
      match s.pending with
      | [] => none
      | (name, toolcfg) :: rest =>
        some { s with
          pending := rest,
          pc := if rest = [] then Pc.waiting else Pc.poll,
          jobs := s.jobs ++ [{ name := name, toolcfg := toolcfg, phase := Phase.building }] }
    else none
  | Event.wait =>
    if s.pc = Pc.waiting ∧ s.wg = 0 then some { s with pc := Pc.returned false } else none
  | Event.buildReturns i err =>
    match advance Phase.building Phase.built i s.jobs, s.jobs[i]? with
    | some js, some j =>
      some { s with
        jobs := js,
        warnings := if err then s.warnings ++ [j.name] else s.warnings,
        ticks := s.ticks + 1 }
    | _, _ => none
  | Event.done i =>
    match advance Phase.built Phase.signalled i s.jobs with
    | some js => some { s with jobs := js, wg := s.wg - 1 }
    | none => none
  | Event.dec i =>
    match advance Phase.signalled Phase.exited i s.jobs with
    | some js => some { s with jobs := js, running := s.running - 1 }
    | none => none

/-- The states the loop can be in: the start state and what a step gives from one. -/
inductive Reachable (cpus : Int) (work : List (GoString × Tool)) : Sched → Prop where
  | start : Reachable cpus work (start work)
  | step {s s2 : Sched} {e : Event} :
      Reachable cpus work s → step cpus s e = some s2 → Reachable cpus work s2

/-- The run of a list of events from a state; none when one of them cannot happen. -/
def run (cpus : Int) : List Event → Sched → Option Sched
  | [], s => some s
  | e :: es, s =>
    match step cpus s e with
    | some s2 => run cpus es s2
    | none => none

/-- The goroutines that have been started and have not yet decremented `running`. -/
def active (s : Sched) : Nat :=
  s.jobs.countP (fun j => j.phase != Phase.exited)

/-- The goroutines whose call of `builder.Build` has not returned. -/
def inBuild (s : Sched) : Nat :=
  s.jobs.countP (fun j => j.phase == Phase.building)

/-- The entries of the job set for which a goroutine was started, in order of start. -/
def launched (s : Sched) : List (GoString × Tool) :=
  s.jobs.map (fun j => (j.name, j.toolcfg))

/-- The goroutines that have not yet called `waitgroup.Done()`. -/
def unsignalled (s : Sched) : Nat :=
  s.jobs.countP (fun j => j.phase == Phase.building || j.phase == Phase.built)

/-- One when the dispatcher has incremented `running` for a goroutine it has not yet
started, zero otherwise. -/
def pendingInc : Pc → Nat
  | Pc.counted => 1
  | Pc.added => 1
  | _ => 0

/-- One when the dispatcher has added to the wait group for a goroutine it has not yet
started, zero otherwise. -/
def pendingAdd : Pc → Nat
  | Pc.added => 1
  | _ => 0

/-- One when the dispatcher has passed the admission check and not yet incremented
`running`, zero otherwise. -/
def reserved : Pc → Nat
  | Pc.admitted => 1
  | _ => 0

/-- The dispatcher is inside the range loop, at some entry of the job set. -/
def dispatching : Pc → Bool
  | Pc.poll => true
  | Pc.admitted => true
  | Pc.counted => true
  | Pc.added => true
  | _ => false

/-- The invariant of the loop: `running` counts the goroutines that have not yet
decremented it (and the one about to be started), the wait group counts those that
have not yet called `Done` (and the one about to be started), `running` is at most 4
and below 4 once admission is granted, the goroutines started and the pending entries
make up the job set, the pending entries are exhausted once the range loop is over,
and the wait group is at zero once `toolBuild` has returned nil. -/
structure Inv (work : List (GoString × Tool)) (s : Sched) : Prop where
  running_eq : s.running = (active s : Int) + (pendingInc s.pc : Int)
  wg_eq : s.wg = (unsignalled s : Int) + (pendingAdd s.pc : Int)
  cap : s.running + (reserved s.pc : Int) ≤ 4
  entries : launched s ++ s.pending = work
  more : dispatching s.pc = true → s.pending ≠ []
  over : s.pc = Pc.waiting ∨ s.pc = Pc.returned false → s.pending = []
  joined : s.pc = Pc.returned false → s.wg = 0

/-! ## Executions under a schedule -/

/-- The state after an event of a schedule: an event that cannot happen in the state
leaves it as it is (the goroutine that was given the processor could not move). -/
def next (cpus : Int) (s : Sched) (e : Event) : Sched :=
  (step cpus s e).getD s

/-- The state after the first `n` events of the schedule `sched`, from the state `s0`. -/
def exec (cpus : Int) (sched : Nat → Event) (s0 : Sched) : Nat → Sched
  | 0 => s0
  | n + 1 => next cpus (exec cpus sched s0 n) (sched n)

/-- Events with the property `P` come again and again in the schedule. -/
def Often (sched : Nat → Event) (P : Event → Prop) : Prop :=
  ∀ n, ∃ m, n ≤ m ∧ P (sched m)

/-- The Go scheduler starves no goroutine: every statement of the dispatcher after the
polling loop, and the two statements that each of the first `njobs` goroutines runs
after its call of `Build`, are scheduled again and again. -/
structure Unstarved (sched : Nat → Event) (njobs : Nat) : Prop where
  inc : Often sched (fun e => e = Event.inc)
  add : Often sched (fun e => e = Event.add)
  spawn : Often sched (fun e => e = Event.spawn)
  wait : Often sched (fun e => e = Event.wait)
  done : ∀ i, i < njobs → Often sched (fun e => e = Event.done i)
  dec : ∀ i, i < njobs → Often sched (fun e => e = Event.dec i)

/-- Every call of `Build` of the first `njobs` goroutines returns, with or without an
error: the return of each comes again and again in the schedule (it happens the first
time it comes after the goroutine was started). -/
def BuildsReturn (sched : Nat → Event) (njobs : Nat) : Prop :=
  ∀ i, i < njobs → Often sched (fun e => ∃ err, e = Event.buildReturns i err)

/-- Every load-average sample of the schedule is obtained: `load.Avg()` never fails. -/
def Sampled (sched : Nat → Event) : Prop :=
  ∀ n, sched n ≠ Event.avg none

/-- Polls that sample a load of at most 2 times the CPU count come again and again. -/
def LoadOften (cpus : Int) (sched : Nat → Event) : Prop :=
  Often sched (fun e => ∃ l : ℚ, e = Event.avg (some l) ∧ l ≤ 2 * (cpus : ℚ))

/-- The statements the dispatcher has left for the entry it is at, plus one for the
return from `waitgroup.Wait()`. -/
def pcLeft : Pc → Nat
  | Pc.poll => 4
  | Pc.admitted => 3
  | Pc.counted => 2
  | Pc.added => 1
  | Pc.waiting => 1
  | Pc.returned _ => 0

/-- A bound on the state-changing steps that are left: 7 for every pending entry, 3, 2,
1 or 0 for a goroutine by its phase, and what the dispatcher has left. -/
def stepsLeft (s : Sched) : Nat :=
  7 * s.pending.length + active s + unsignalled s + inBuild s + pcLeft s.pc

end toolBuild

open toolBuild

/-! ## Example data -/

/-- Five tools, keyed a to e. -/
def exFive : List (GoString × Tool) :=
  [("a".toList, { Cmd := [], Clone := false, Build := [] }),
   ("b".toList, { Cmd := [], Clone := true, Build := [] }),
   ("c".toList, { Cmd := [], Clone := false, Build := [] }),
   ("d".toList, { Cmd := [], Clone := false, Build := [] }),
   ("e".toList, { Cmd := [], Clone := false, Build := [] })]

/-- The dispatch of one entry under a load average of zero: the admission check, the
two counters, and the `go` statement. -/
def exDispatch : List Event :=
  [Event.avg (some 0), Event.inc, Event.add, Event.spawn]

/-- The state after the dispatch of the first four of the five tools: four goroutines
in `Build`, the dispatcher polling for the fifth. -/
def exBusy : Sched :=
  { pending := exFive.drop 4, pc := Pc.poll, running := 4, wg := 4,
    jobs := (exFive.take 4).map
      (fun e => { name := e.1, toolcfg := e.2, phase := Phase.building }),
    warnings := [], ticks := 0 }

/-- The state in which `toolBuild` has returned the error for the load average while
the goroutine of the first tool is still in `Build`. -/
def exAbandoned : Sched :=
  { pending := exFive.drop 1, pc := Pc.returned true, running := 1, wg := 1,
    jobs := (exFive.take 1).map
      (fun e => { name := e.1, toolcfg := e.2, phase := Phase.building }),
    warnings := [], ticks := 0 }

/-- Three tools, keyed a, b and c. -/
def exThree : List (GoString × Tool) :=
  exFive.take 3

/-- One round of a round-robin schedule for three goroutines: a poll that samples the
load `l`, the other statements of the dispatcher, and the statements of every
goroutine; the `Build` of the second goroutine fails, the others succeed. -/
def exRound (l : ℚ) : List Event :=
  [Event.avg (some l), Event.inc, Event.add, Event.spawn,
   Event.buildReturns 0 false, Event.done 0, Event.dec 0,
   Event.buildReturns 1 true, Event.done 1, Event.dec 1,
   Event.buildReturns 2 false, Event.done 2, Event.dec 2,
   Event.wait]

/-- The schedule that repeats a round of events for ever. -/
def cycle (round : List Event) (n : Nat) : Event :=
  round.getD (n % round.length) Event.wait

/-- The round-robin schedule that repeats `exRound l` for ever. -/
def exSchedule (l : ℚ) : Nat → Event :=
  cycle (exRound l)

/-- The round `exRound 0` without the return of the first goroutine from `Build`: the
`Build` of the first tool hangs. -/
def exHungRound : List Event :=
  [Event.avg (some 0), Event.inc, Event.add, Event.spawn,
   Event.done 0, Event.dec 0,
   Event.buildReturns 1 true, Event.done 1, Event.dec 1,
   Event.buildReturns 2 false, Event.done 2, Event.dec 2,
   Event.wait]

/-- The round `exRound 0` without the return of `waitgroup.Wait()`: the dispatcher is
never scheduled again once it waits there. -/
def exStarvedRound : List Event :=
  [Event.avg (some 0), Event.inc, Event.add, Event.spawn,
   Event.buildReturns 0 false, Event.done 0, Event.dec 0,
   Event.buildReturns 1 true, Event.done 1, Event.dec 1,
   Event.buildReturns 2 false, Event.done 2, Event.dec 2]

/-- One tool, keyed a. -/
def exOne : List (GoString × Tool) :=
  exFive.take 1

/-- The state in which `toolBuild` has returned nil for the one tool, whose goroutine
has called `waitgroup.Done()` and has not yet decremented `running`. -/
def exJoined : Sched :=
  { pending := [], pc := Pc.returned false, running := 1, wg := 0,
    jobs := exOne.map (fun e => { name := e.1, toolcfg := e.2, phase := Phase.signalled }),
    warnings := [], ticks := 1 }

/-- The state in which the run of the three tools ends under a load of zero. -/
def exDone : Sched :=
  { pending := [], pc := Pc.returned false, running := 0, wg := 0,
    jobs := exThree.map (fun e => { name := e.1, toolcfg := e.2, phase := Phase.exited }),
    warnings := ["b".toList], ticks := 3 }

/-- A world in which the third subprocess of a job exits with a failure and every other
one succeeds. -/
def exWorld : World :=
  { mkdir := fun _ pattern => some ("/out/build-1/".toList ++ pattern ++ "1".toList),
    createFile := fun _ => true,
    run := fun n _ => if n = 2 then RunResult.exitFailure else RunResult.ok,
    join := fun a c => a ++ '/' :: c }

/-- A builder with output directory "/out". -/
def exBuilder : Builder :=
  { outputDir := "/out".toList, tmpDir := "/out/build-1".toList }

/-- A cloned tool with three build steps. -/
def exTool : Tool :=
  { Cmd := [], Clone := true,
    Build := ["make".toList, "false".toList, "make install".toList] }

/-! ## Theorems -/

theorem Split_ne_nil (s : GoString) (sep : Char) : Split s sep ≠ [] := by
  cases s with
  | nil => simp [Split]
  | cons c cs =>
    unfold Split
    split
    · simp
    · split <;> simp

theorem Split_of_not_mem (sep : Char) (b : GoString) (h : sep ∉ b) : Split b sep = [b] := by
  induction b with
  | nil => rfl
  | cons c cs ih =>
    have hc : c ≠ sep := fun e => h (by simp [e])
    have hcs : sep ∉ cs := fun e => h (by simp [e])
    unfold Split
    rw [if_neg hc, ih hcs]

theorem Split_append_sep (sep : Char) (a b : GoString) (h : sep ∉ b) :
    Split (a ++ sep :: b) sep = Split a sep ++ [b] := by
  induction a with
  | nil =>
    show Split (sep :: b) sep = _
    simp [Split, Split_of_not_mem sep b h]
  | cons c cs ih =>
    show Split (c :: (cs ++ sep :: b)) sep = Split (c :: cs) sep ++ [b]
    by_cases hc : c = sep
    · rw [Split, if_pos hc, ih]
      conv_rhs => rw [Split, if_pos hc]
      rfl
    · rw [Split, if_neg hc, ih]
      conv_rhs => rw [Split, if_neg hc]
      cases hs : Split cs sep with
      | nil => exact absurd hs (Split_ne_nil cs sep)
      | cons p ps => rfl

theorem last_sep_cases (sep : Char) (name : GoString) :
    sep ∉ name ∨ ∃ pre b, name = pre ++ sep :: b ∧ sep ∉ b := by
  induction name with
  | nil => left; simp
  | cons c cs ih =>
    rcases ih with h | ⟨pre, b, hb, hn⟩
    · by_cases hc : c = sep
      · right; exact ⟨[], cs, by simp [hc], h⟩
      · left
        simp only [List.mem_cons, not_or]
        exact ⟨fun e => hc e.symm, h⟩
    · right; exact ⟨c :: pre, b, by simp [hb], hn⟩

theorem getD_length_sub_one_append {α : Type} (l : List α) (b d : α) :
    (l ++ [b]).getD ((l ++ [b]).length - 1) d = b := by
  simp [List.getD_eq_getElem?_getD]

theorem basename_of_not_mem (b : GoString) (h : '/' ∉ b) : basename b = b := by
  unfold basename
  rw [Split_of_not_mem '/' b h]
  rfl

theorem basename_append_slash (pre b : GoString) (h : '/' ∉ b) :
    basename (pre ++ '/' :: b) = b := by
  unfold basename
  rw [Split_append_sep '/' pre b h]
  exact getD_length_sub_one_append _ b []

/-! ### filepath.Base and the output name -/

theorem Base_eq_self_of_slash_mem (p : GoString) (hmem : '/' ∈ p) (h : Base p = p) :
    p = ['/'] := by
  have hne : p ≠ [] := List.ne_nil_of_mem hmem
  unfold Base at h
  rw [if_neg hne] at h
  simp only at h
  split at h
  · exact h.symm
  · exfalso
    rw [← h, List.mem_reverse] at hmem
    have := List.mem_takeWhile_imp hmem
    simp at this

theorem Base_slash : Base ['/'] = ['/'] := by decide

theorem outputName_invalid (mod : GoString) (cfg : Tool) (hmem : '/' ∈ cfg.Cmd)
    (hne : cfg.Cmd ≠ ['/']) : outputName mod cfg = Except.error (BuildErr.invalidCmd cfg.Cmd) := by
  have h0 : cfg.Cmd.length ≠ 0 := by
    intro h
    rw [List.length_eq_zero] at h
    rw [h] at hmem
    simp at hmem
  have hb : Base cfg.Cmd ≠ cfg.Cmd := fun h => hne (Base_eq_self_of_slash_mem _ hmem h)
  unfold outputName
  simp only
  rw [if_neg h0, if_pos hb]

theorem MkdirTemp_slash (w : World) (dir pattern : GoString) (h : '/' ∈ pattern) :
    MkdirTemp w dir pattern = none := by
  unfold MkdirTemp
  rw [if_pos]
  simpa using h

/-- A tool whose explicit `Cmd` holds a "/" is never built: `Build` returns an error
without creating a scratch directory or invoking a build function; the error is the
invalid-cmd one unless `Cmd` is exactly "/". -/
theorem Build_rejects_path_cmd (w : World) (b : Builder) (mod : GoString) (cfg : Tool)
    (hmem : '/' ∈ cfg.Cmd) :
    (Build w b mod cfg).scratch = none ∧ (Build w b mod cfg).invoked = none ∧
    (Build w b mod cfg).commands = [] ∧ (Build w b mod cfg).err ≠ none ∧
    (cfg.Cmd ≠ ['/'] → (Build w b mod cfg).err = some (BuildErr.invalidCmd cfg.Cmd)) := by
  by_cases hne : cfg.Cmd = ['/']
  · have hout : outputName mod cfg = Except.ok ['/'] := by
      unfold outputName
      simp [hne, Base_slash]
    have hmk : MkdirTemp w b.tmpDir (['/'] ++ ['-']) = none :=
      MkdirTemp_slash w _ _ (by simp)
    unfold Build
    rw [hout]
    simp only [hmk]
    simp [hne]
  · unfold Build
    rw [outputName_invalid mod cfg hmem hne]
    simp

/-- C5 (code bug): for the explicit `Cmd` "/", which holds the path separator, the
check `filepath.Base(output) != output` of `Build` passes, because `filepath.Base` of
"/" is "/"; `Build` goes on to `os.MkdirTemp`, and the error it returns is the one for
the scratch directory, not the invalid-cmd one. -/
theorem Build_cmd_slash_passes_check (w : World) (b : Builder) (mod : GoString)
    (clone : Bool) (steps : List GoString) :
    outputName mod { Cmd := ['/'], Clone := clone, Build := steps } = Except.ok ['/'] ∧
    (Build w b mod { Cmd := ['/'], Clone := clone, Build := steps }).err
      = some BuildErr.creatingTmpDir ∧
    (Build w b mod { Cmd := ['/'], Clone := clone, Build := steps }).err
      ≠ some (BuildErr.invalidCmd ['/']) := by
  have hout : outputName mod { Cmd := ['/'], Clone := clone, Build := steps }
      = Except.ok ['/'] := by
    unfold outputName
    simp [Base_slash]
  have hmk : MkdirTemp w b.tmpDir (['/'] ++ ['-']) = none :=
    MkdirTemp_slash w _ _ (by simp)
  have herr : (Build w b mod { Cmd := ['/'], Clone := clone, Build := steps }).err
      = some BuildErr.creatingTmpDir := by
    unfold Build
    rw [hout]
    simp only [hmk]
  refine ⟨hout, herr, ?_⟩
  rw [herr]
  simp

/-! ### basename -/

theorem basename_no_slash (name : GoString) : '/' ∉ basename name := by
  rcases last_sep_cases '/' name with h | ⟨pre, b, hb, hn⟩
  · rw [basename_of_not_mem name h]
    exact h
  · rw [hb, basename_append_slash pre b hn]
    exact hn

/-- C8 (code bug): `basename` does not strip a trailing version segment. On
"example.org/cmd/v2", whose last segment "v2" is a version segment, it returns "v2",
where `TestBasename` expects "cmd" (which is `basename` of "example.org/cmd"). -/
theorem basename_keeps_version_segment :
    isVersionSegment "v2".toList = true ∧
    basename "example.org/cmd/v2".toList = "v2".toList ∧
    basename "example.org/cmd/v2".toList ≠ "cmd".toList ∧
    basename "example.org/cmd/v2".toList ≠ basename "example.org/cmd".toList := by
  decide

/-- C9: for every identity (so for every one whose last segment is not a version
segment) `basename` returns the last "/"-separated segment: the result holds no "/",
and either the identity holds no "/" and is returned whole, or the identity is some
prefix, a "/", and the result. On "example.org/cmd" the result is "cmd". It is the
output name `Build` uses for a tool with an empty `Cmd`: the scratch directory is made
for the pattern `basename mod` followed by "-", and the build function gets the output
path `filepath.Join(outputDir, basename mod)`. -/
theorem basename_last_segment (name : GoString) :
    '/' ∉ basename name ∧
    (('/' ∉ name ∧ basename name = name) ∨ ∃ pre, name = pre ++ '/' :: basename name) ∧
    basename "example.org/cmd".toList = "cmd".toList ∧
    (∀ cfg : Tool, cfg.Cmd = [] → outputName name cfg = Except.ok (basename name)) ∧
    (∀ (w : World) (b : Builder) (cfg : Tool) (tmpdir : GoString), cfg.Cmd = [] →
      w.mkdir b.tmpDir (basename name ++ ['-']) = some tmpdir →
      (Build w b name cfg).scratch = some tmpdir ∧
      (Build w b name cfg).invoked
        = some (cfg.Clone, tmpdir, w.join b.outputDir (basename name))) := by
  have hout : ∀ cfg : Tool, cfg.Cmd = [] → outputName name cfg = Except.ok (basename name) := by
    intro cfg hcfg
    unfold outputName
    simp [hcfg]
  refine ⟨basename_no_slash name, ?_, by decide, hout, ?_⟩
  · rcases last_sep_cases '/' name with h | ⟨pre, b, hb, hn⟩
    · left
      exact ⟨h, basename_of_not_mem name h⟩
    · right
      refine ⟨pre, ?_⟩
      rw [hb, basename_append_slash pre b hn]
  · intro w b cfg tmpdir hcfg hmk
    have hmk2 : MkdirTemp w b.tmpDir (basename name ++ ['-']) = some tmpdir := by
      unfold MkdirTemp
      rw [if_neg, hmk]
      have := basename_no_slash name
      simpa using this
    unfold Build
    rw [hout cfg hcfg]
    simp [hmk2]

/-! ### os.Expand and expandVars -/

theorem expandLoop_nil (m : GoString → GoString) (fuel : Nat) : expandLoop m fuel [] = [] := by
  cases fuel <;> rfl

theorem expandLoop_no_dollar (m : GoString → GoString) (fuel : Nat) (s : GoString)
    (h : '$' ∉ s) : expandLoop m fuel s = s := by
  induction fuel generalizing s with
  | zero => rfl
  | succ n ih =>
    cases s with
    | nil => rfl
    | cons c rest =>
      have hc : c ≠ '$' := fun e => h (by simp [e])
      have hr : '$' ∉ rest := fun e => h (by simp [e])
      unfold expandLoop
      rw [if_neg (fun hh => hc hh.1), ih rest hr]

theorem takeWhile_ne_append_self (x : Char) (l : GoString) (h : x ∉ l) :
    (l ++ [x]).takeWhile (fun c => c != x) = l := by
  induction l with
  | nil => simp [List.takeWhile]
  | cons c cs ih =>
    have hc : c ≠ x := fun e => h (by simp [e])
    have hcs : x ∉ cs := fun e => h (by simp [e])
    simp [List.takeWhile_cons, hc, ih hcs]

theorem takeWhile_all (p : Char → Bool) (l : GoString) (h : l.all p = true) :
    l.takeWhile p = l := by
  induction l with
  | nil => rfl
  | cons c cs ih =>
    simp only [List.all_cons, Bool.and_eq_true] at h
    simp [List.takeWhile_cons, h.1, ih h.2]

theorem ident_head (c : Char)
    (h : (c == '_' || ('a' ≤ c && c ≤ 'z') || ('A' ≤ c && c ≤ 'Z')) = true) :
    c ≠ '{' ∧ isShellSpecialVar c = false ∧ isAlphaNum c = true := by
  refine ⟨?_, ?_, ?_⟩
  · rintro rfl
    revert h
    decide
  · cases hs : isShellSpecialVar c with
    | false => rfl
    | true =>
      exfalso
      simp only [isShellSpecialVar, decide_eq_true_eq, List.mem_cons, List.mem_singleton,
        List.not_mem_nil, or_false] at hs
      revert h
      rcases hs with rfl | rfl | rfl | rfl | rfl | rfl | rfl | rfl | rfl | rfl | rfl | rfl |
        rfl | rfl | rfl | rfl | rfl <;> decide
  · unfold isAlphaNum
    simp only [Bool.or_eq_true] at h ⊢
    rcases h with (h | h) | h
    · exact Or.inl (Or.inl (Or.inl h))
    · exact Or.inl (Or.inr h)
    · exact Or.inr h

/-- A "$name" reference with a shell identifier as name expands to `mapping name`. -/
theorem Expand_dollar_ident (m : GoString → GoString) (name : GoString)
    (h : isShellIdent name = true) : Expand ('$' :: name) m = m name := by
  cases name with
  | nil => simp [isShellIdent] at h
  | cons c rest =>
    simp only [isShellIdent, Bool.and_eq_true] at h
    obtain ⟨hb, hspec, halnum⟩ := ident_head c h.1
    have hall : (c :: rest).all isAlphaNum = true := by
      simp only [List.all_cons, Bool.and_eq_true]
      exact ⟨halnum, h.2⟩
    have hname : getShellName (c :: rest) = (c :: rest, (c :: rest).length) := by
      simp only [getShellName]
      rw [if_neg hb]
      simp only [hspec, Bool.false_eq_true, if_false]
      rw [takeWhile_all isAlphaNum (c :: rest) hall]
    unfold Expand
    show expandLoop m ((c :: rest).length + 1) ('$' :: c :: rest) = _
    unfold expandLoop
    rw [if_pos ⟨rfl, by simp⟩]
    simp only [hname]
    simp [expandLoop_nil]

/-- A "${name}" reference expands to `mapping name`. -/
theorem Expand_brace (m : GoString → GoString) (name : GoString)
    (hne : name ≠ []) (hclose : '}' ∉ name) :
    Expand ('$' :: '{' :: (name ++ ['}'])) m = m name := by
  have hscan : getShellName.scanBrace (name ++ ['}']) = (name, name.length + 2) := by
    unfold getShellName.scanBrace
    simp only [takeWhile_ne_append_self '}' name hclose]
    simp [hne]
  have hname : getShellName ('{' :: (name ++ ['}'])) = (name, name.length + 2) := by
    simp only [getShellName]
    rw [if_pos trivial]
    cases name with
    | nil => exact absurd rfl hne
    | cons c1 rest =>
      cases rest with
      | nil =>
        show (if (isShellSpecialVar c1 && '}' == '}') = true then ([c1], 3)
          else getShellName.scanBrace ([c1] ++ ['}'])) = _
        split
        · rfl
        · exact hscan
      | cons c2 rest2 =>
        have hc2 : c2 ≠ '}' := fun e => hclose (by simp [e])
        show (if (isShellSpecialVar c1 && c2 == '}') = true then ([c1], 3)
          else getShellName.scanBrace (c1 :: c2 :: rest2 ++ ['}'])) = _
        rw [if_neg]
        · exact hscan
        · simp [hc2]
  unfold Expand
  show expandLoop m (('{' :: (name ++ ['}'])).length + 1) ('$' :: '{' :: (name ++ ['}'])) = _
  unfold expandLoop
  rw [if_pos ⟨rfl, by simp⟩]
  simp only [hname]
  simp [expandLoop_nil, hne]

theorem expandVars_getElem (b : Builder) (cmd : GoString) (i : Nat) (tok : GoString)
    (hi : 0 < i) (h : (Split cmd ' ')[i]? = some tok) :
    (expandVars b cmd)[i]? = some (Expand tok (expandKey b)) := by
  unfold expandVars
  cases hs : Split cmd ' ' with
  | nil => exact absurd hs (Split_ne_nil cmd ' ')
  | cons first rest =>
    rw [hs] at h
    cases i with
    | zero => exact absurd hi (Nat.lt_irrefl 0)
    | succ j =>
      simp only [List.getElem?_cons_succ] at h ⊢
      rw [List.getElem?_map, h]
      rfl

/-- The fuel of `expandLoop` never runs out before the text does: any two amounts of
fuel that are at least the length of the text give the same result. -/
theorem expandLoop_fuel (m : GoString → GoString) (f1 f2 : Nat) (s : GoString)
    (h1 : s.length ≤ f1) (h2 : s.length ≤ f2) : expandLoop m f1 s = expandLoop m f2 s := by
  induction f1 generalizing f2 s with
  | zero =>
    have hs : s = [] := List.length_eq_zero.mp (Nat.le_zero.mp h1)
    rw [hs, expandLoop_nil, expandLoop_nil]
  | succ n ih =>
    cases s with
    | nil => rw [expandLoop_nil, expandLoop_nil]
    | cons c rest =>
      cases f2 with
      | zero => simp at h2
      | succ k =>
        simp only [List.length_cons, Nat.add_le_add_iff_right] at h1 h2
        unfold expandLoop
        split
        · have hd : (rest.drop (getShellName rest).2).length ≤ rest.length := by
            rw [List.length_drop]
            exact Nat.sub_le _ _
          simp only
          rw [ih k _ (le_trans hd h1) (le_trans hd h2)]
        · rw [ih k rest h1 h2]

/-- C10: `expandVars` returns as many tokens as the split of the step on single spaces
gives, at least one; the first token is the one of the split; a later token without
"$" is unchanged; a later token that is exactly "$OUTDIR" or "${OUTDIR}" becomes the
output directory of the builder; and a later token that is a reference ("$name" or
"${name}") to any other variable name becomes the empty string. -/
theorem expandVars_tokens (b : Builder) (cmd : GoString) :
    expandVars b cmd ≠ [] ∧
    (expandVars b cmd).length = (Split cmd ' ').length ∧
    (expandVars b cmd)[0]? = (Split cmd ' ')[0]? ∧
    ∀ (i : Nat) (tok : GoString), 0 < i → (Split cmd ' ')[i]? = some tok →
      ('$' ∉ tok → (expandVars b cmd)[i]? = some tok) ∧
      (tok = "$OUTDIR".toList ∨ tok = "$\x7bOUTDIR\x7d".toList →
        (expandVars b cmd)[i]? = some b.outputDir) ∧
      (∀ name : GoString, isShellIdent name = true → name ≠ "OUTDIR".toList →
        tok = '$' :: name ∨ tok = '$' :: '{' :: (name ++ ['}']) →
        (expandVars b cmd)[i]? = some []) := by
  have hbrace : ∀ name : GoString, isShellIdent name = true → name ≠ [] ∧ '}' ∉ name := by
    intro name hn
    cases name with
    | nil => simp [isShellIdent] at hn
    | cons c rest =>
      refine ⟨by simp, ?_⟩
      simp only [isShellIdent, Bool.and_eq_true] at hn
      obtain ⟨_, _, halnum⟩ := ident_head c hn.1
      have hall : ∀ x ∈ c :: rest, isAlphaNum x = true := by
        intro x hx
        rcases List.mem_cons.mp hx with rfl | hx
        · exact halnum
        · exact List.all_eq_true.mp hn.2 x hx
      intro hmem
      have := hall _ hmem
      revert this
      decide
  have hexp : ∀ name : GoString, isShellIdent name = true →
      ∀ tok : GoString, tok = '$' :: name ∨ tok = '$' :: '{' :: (name ++ ['}']) →
      Expand tok (expandKey b) = expandKey b name := by
    intro name hn tok htok
    rcases htok with rfl | rfl
    · exact Expand_dollar_ident _ name hn
    · exact Expand_brace _ name (hbrace name hn).1 (hbrace name hn).2
  refine ⟨?_, ?_, ?_, ?_⟩
  · unfold expandVars
    cases hs : Split cmd ' ' with
    | nil => exact absurd hs (Split_ne_nil cmd ' ')
    | cons first rest => simp
  · unfold expandVars
    cases hs : Split cmd ' ' with
    | nil => rfl
    | cons first rest => simp
  · unfold expandVars
    cases hs : Split cmd ' ' with
    | nil => rfl
    | cons first rest => simp
  · intro i tok hi htok
    rw [expandVars_getElem b cmd i tok hi htok]
    refine ⟨?_, ?_, ?_⟩
    · intro hd
      unfold Expand
      rw [expandLoop_no_dollar _ _ tok hd]
    · intro h
      have hid : isShellIdent "OUTDIR".toList = true := by decide
      have hkey : expandKey b "OUTDIR".toList = b.outputDir := by
        unfold expandKey
        rw [if_pos rfl]
      rw [hexp "OUTDIR".toList hid tok h, hkey]
    · intro name hn hne h
      rw [hexp name hn tok h]
      unfold expandKey
      rw [if_neg hne]

/-- An example run of `expandVars`, with the output directory "/out". -/
theorem expandVars_example :
    expandVars { outputDir := "/out".toList, tmpDir := "/out/build-1".toList }
      "make install $OUTDIR $\x7bOUTDIR\x7d/bin $HOME -v".toList
    = ["make".toList, "install".toList, "/out".toList, "/out/bin".toList, [], "-v".toList] := by
  decide

/-! ### cloneAndBuild -/

theorem stepSucceeds_succ (w : World) (b : Builder) (tmpdir step : GoString)
    (rest : List GoString) (n i : Nat) :
    stepSucceeds w b tmpdir (step :: rest) n (i + 1) ↔ stepSucceeds w b tmpdir rest (n + 1) i := by
  unfold stepSucceeds
  simp only [List.getElem?_cons_succ]
  have e : i + 1 + n = i + (n + 1) := by omega
  rw [e]

theorem stepSucceeds_zero (w : World) (b : Builder) (tmpdir step : GoString)
    (rest : List GoString) (n : Nat) :
    stepSucceeds w b tmpdir (step :: rest) n 0 ↔
      w.run n (stepCommand b tmpdir step) = RunResult.ok := by
  unfold stepSucceeds
  simp

theorem runSteps_err_none_iff (w : World) (b : Builder) (tmpdir : GoString)
    (steps : List GoString) (n : Nat) :
    (runSteps w b tmpdir n steps).1 = none ↔
      ∀ i, i < steps.length → stepSucceeds w b tmpdir steps n i := by
  induction steps generalizing n with
  | nil => simp [runSteps]
  | cons step rest ih =>
    have hsplit : (∀ i, i < (step :: rest).length → stepSucceeds w b tmpdir (step :: rest) n i) ↔
        (w.run n (stepCommand b tmpdir step) = RunResult.ok ∧
          ∀ i, i < rest.length → stepSucceeds w b tmpdir rest (n + 1) i) := by
      constructor
      · intro h
        refine ⟨(stepSucceeds_zero w b tmpdir step rest n).mp (h 0 (by simp)), ?_⟩
        intro i hi
        exact (stepSucceeds_succ w b tmpdir step rest n i).mp (h (i + 1) (by simpa using hi))
      · rintro ⟨h0, hr⟩ i hi
        cases i with
        | zero => exact (stepSucceeds_zero w b tmpdir step rest n).mpr h0
        | succ j =>
          exact (stepSucceeds_succ w b tmpdir step rest n j).mpr (hr j (by simpa using hi))
    rw [hsplit]
    unfold runSteps
    cases hrun : w.run n (stepCommand b tmpdir step) with
    | ok => simpa [hrun] using ih (n + 1)
    | exitFailure => simp [hrun]
    | runError => simp [hrun]

theorem runSteps_all_ok (w : World) (b : Builder) (tmpdir : GoString)
    (steps : List GoString) (n : Nat)
    (h : ∀ i, i < steps.length → stepSucceeds w b tmpdir steps n i) :
    runSteps w b tmpdir n steps = (none, steps.map (stepCommand b tmpdir)) := by
  induction steps generalizing n with
  | nil => rfl
  | cons step rest ih =>
    have h0 := (stepSucceeds_zero w b tmpdir step rest n).mp (h 0 (by simp))
    have hr : ∀ i, i < rest.length → stepSucceeds w b tmpdir rest (n + 1) i := fun i hi =>
      (stepSucceeds_succ w b tmpdir step rest n i).mp (h (i + 1) (by simpa using hi))
    unfold runSteps
    simp only [h0, ih (n + 1) hr, List.map_cons]

theorem runSteps_first_failure (w : World) (b : Builder) (tmpdir : GoString)
    (steps : List GoString) (n k : Nat) (hk : k < steps.length)
    (hbefore : ∀ i, i < k → stepSucceeds w b tmpdir steps n i)
    (hfail : ¬ stepSucceeds w b tmpdir steps n k) :
    (runSteps w b tmpdir n steps).1 ≠ none ∧
    (runSteps w b tmpdir n steps).2 = (steps.take (k + 1)).map (stepCommand b tmpdir) := by
  induction steps generalizing n k with
  | nil => simp at hk
  | cons step rest ih =>
    cases k with
    | zero =>
      rw [stepSucceeds_zero] at hfail
      unfold runSteps
      cases hrun : w.run n (stepCommand b tmpdir step) with
      | ok => exact absurd hrun hfail
      | exitFailure => simp [hrun]
      | runError => simp [hrun]
    | succ j =>
      have h0 := (stepSucceeds_zero w b tmpdir step rest n).mp (hbefore 0 (by omega))
      have hb : ∀ i, i < j → stepSucceeds w b tmpdir rest (n + 1) i := fun i hi =>
        (stepSucceeds_succ w b tmpdir step rest n i).mp (hbefore (i + 1) (by omega))
      have hf : ¬ stepSucceeds w b tmpdir rest (n + 1) j := fun hh =>
        hfail ((stepSucceeds_succ w b tmpdir step rest n j).mpr hh)
      have hj : j < rest.length := by simpa using hk
      obtain ⟨ih1, ih2⟩ := ih (n + 1) j hj hb hf
      unfold runSteps
      simp only [h0]
      exact ⟨ih1, by rw [ih2]; rfl⟩

/-- C6: with a clone that succeeds (its `Run` returns no error) and a non-empty list of
build steps, `cloneAndBuild` runs the clone and then the steps in list order; when step
`k` is the first that fails, the subprocesses run are the clone and the steps up to and
including `k` (no later step is run) and an error is returned; when every step succeeds
all of them are run and no error is returned; and no error is returned exactly when
every step succeeds. -/
theorem cloneAndBuild_steps (w : World) (b : Builder) (cfg : Tool)
    (mod tmpdir outputPath : GoString) (hsteps : cfg.Build ≠ [])
    (hclone : w.run 0 (cloneCommand mod tmpdir) ≠ RunResult.runError) :
    (∀ k, k < cfg.Build.length →
      (∀ i, i < k → stepSucceeds w b tmpdir cfg.Build 1 i) →
      ¬ stepSucceeds w b tmpdir cfg.Build 1 k →
      (cloneAndBuild w b cfg mod tmpdir outputPath).1 ≠ none ∧
      (cloneAndBuild w b cfg mod tmpdir outputPath).2
        = cloneCommand mod tmpdir :: (cfg.Build.take (k + 1)).map (stepCommand b tmpdir)) ∧
    ((∀ i, i < cfg.Build.length → stepSucceeds w b tmpdir cfg.Build 1 i) →
      cloneAndBuild w b cfg mod tmpdir outputPath
        = (none, cloneCommand mod tmpdir :: cfg.Build.map (stepCommand b tmpdir))) ∧
    ((cloneAndBuild w b cfg mod tmpdir outputPath).1 = none ↔
      ∀ i, i < cfg.Build.length → stepSucceeds w b tmpdir cfg.Build 1 i) := by
  have hlen : 0 < cfg.Build.length := List.length_pos.mpr hsteps
  have hrun : cloneAndBuild w b cfg mod tmpdir outputPath
      = ((runSteps w b tmpdir 1 cfg.Build).1,
         cloneCommand mod tmpdir :: (runSteps w b tmpdir 1 cfg.Build).2) := by
    unfold cloneAndBuild
    simp [hclone, hlen]
  rw [hrun]
  refine ⟨?_, ?_, ?_⟩
  · intro k hk hbefore hfail
    obtain ⟨h1, h2⟩ := runSteps_first_failure w b tmpdir cfg.Build 1 k hk hbefore hfail
    exact ⟨h1, by rw [h2]⟩
  · intro hall
    rw [runSteps_all_ok w b tmpdir cfg.Build 1 hall]
  · exact runSteps_err_none_iff w b tmpdir cfg.Build 1

/-- A run of `cloneAndBuild` with three build steps of which the second fails: the
clone and the first two steps are run, the third is not, and an error is returned. -/
theorem cloneAndBuild_steps_witness :
    exTool.Build ≠ [] ∧
    exWorld.run 0 (cloneCommand "example.org/cmd".toList "/out/build-1/cmd-1".toList)
      ≠ RunResult.runError ∧
    (cloneAndBuild exWorld exBuilder exTool "example.org/cmd".toList
      "/out/build-1/cmd-1".toList "/out/cmd".toList).1 ≠ none ∧
    (cloneAndBuild exWorld exBuilder exTool "example.org/cmd".toList
      "/out/build-1/cmd-1".toList "/out/cmd".toList).2
      = cloneCommand "example.org/cmd".toList "/out/build-1/cmd-1".toList ::
          (exTool.Build.take 2).map (stepCommand exBuilder "/out/build-1/cmd-1".toList) :=
  ⟨by decide, by decide,
    (cloneAndBuild_steps exWorld exBuilder exTool "example.org/cmd".toList
      "/out/build-1/cmd-1".toList "/out/cmd".toList (by decide) (by decide)).1 1 (by decide)
      (by
        intro i hi step _
        have hi0 : i = 0 := by omega
        subst hi0
        rfl)
      (by
        intro h
        have h2 := h "false".toList rfl
        revert h2
        decide)⟩

/-! ### getWork -/

theorem GoMap.get_cons {V : Type} (e : GoString × V) (rest : GoMap V) (k : GoString) :
    GoMap.get (e :: rest) k = if e.1 = k then some e.2 else GoMap.get rest k := by
  by_cases h : e.1 = k
  · simp [GoMap.get, List.find?_cons, h]
  · simp [GoMap.get, List.find?_cons, h]

theorem GoMap.get_nil {V : Type} (k : GoString) : GoMap.get ([] : GoMap V) k = none := rfl

theorem GoMap.get_set {V : Type} (m : GoMap V) (k k2 : GoString) (v : V) :
    (m.set k v).get k2 = if k2 = k then some v else m.get k2 := by
  induction m with
  | nil =>
    simp only [GoMap.set, GoMap.get_cons, GoMap.get_nil]
    by_cases h : k = k2
    · simp [h]
    · have h2 : ¬ k2 = k := fun e => h e.symm
      simp [h, h2]
  | cons e rest ih =>
    unfold GoMap.set
    by_cases he : e.1 = k
    · simp only [beq_iff_eq, he, if_true, GoMap.get_cons]
      by_cases h : k = k2
      · simp [h]
      · have h2 : ¬ k2 = k := fun e => h e.symm
        simp [h, h2]
    · simp only [beq_iff_eq, he, if_false, GoMap.get_cons, ih]
      by_cases h1 : e.1 = k2
      · have h2 : ¬ k2 = k := fun e2 => he (h1.trans e2)
        simp [h1, h2]
      · simp [h1]

theorem foldl_set_get (args : List GoString) (w0 : GoMap Bool) (k : GoString) :
    ((args.foldl (fun want tool => want.set tool true) w0).get k).getD false = true ↔
      k ∈ args ∨ (w0.get k).getD false = true := by
  induction args generalizing w0 with
  | nil => simp
  | cons a rest ih =>
    rw [List.foldl_cons, ih, GoMap.get_set]
    by_cases h : k = a
    · simp [h]
    · simp [h]

theorem wantOf_get (args : List GoString) (k : GoString) :
    ((wantOf args).get k).getD false = decide (k ∈ args) := by
  have h := foldl_set_get args [] k
  unfold wantOf
  by_cases hk : k ∈ args
  · rw [decide_eq_true hk]
    exact h.mpr (Or.inl hk)
  · rw [decide_eq_false hk]
    rw [Bool.eq_false_iff]
    intro hv
    rcases h.mp hv with h1 | h1
    · exact absurd h1 hk
    · simp [GoMap.get] at h1

theorem foldl_delete_eq_filter {V : Type} (W : GoString → Bool) (ks : List GoString)
    (t : GoMap V) :
    ks.foldl (fun t name => if !(W name) then t.delete name else t) t
      = t.filter (fun e => decide (e.1 ∈ ks → W e.1 = true)) := by
  induction ks generalizing t with
  | nil => simp
  | cons k rest ih =>
    rw [List.foldl_cons, ih]
    cases hW : W k with
    | true =>
      simp only [Bool.not_true, Bool.false_eq_true, if_false]
      apply List.filter_congr
      intro e _
      by_cases he : e.1 = k
      · simp [he, hW]
      · simp [he]
    | false =>
      simp only [Bool.not_false, if_true, GoMap.delete, List.filter_filter]
      apply List.filter_congr
      intro e _
      by_cases he : e.1 = k
      · simp [he, hW]
      · simp [he]

theorem getWork_eq_filter (tools : GoMap Tool) (args : List GoString) (h : args ≠ []) :
    getWork tools args = tools.filter (fun e => decide (e.1 ∈ args)) := by
  have hlen : ¬ args.length = 0 := fun e => h (List.length_eq_zero.mp e)
  unfold getWork
  rw [if_neg hlen]
  simp only
  rw [foldl_delete_eq_filter (fun name => ((wantOf args).get name).getD false)]
  apply List.filter_congr
  intro e he
  have hmem : e.1 ∈ tools.map (fun e => e.1) := List.mem_map_of_mem _ he
  simp [hmem, wantOf_get]

theorem GoMap.get_filter_key {V : Type} (m : GoMap V) (S : GoString → Bool) (k : GoString) :
    GoMap.get (m.filter (fun e => S e.1)) k = if S k = true then m.get k else none := by
  induction m with
  | nil => simp [GoMap.get]
  | cons e rest ih =>
    rw [GoMap.get_cons]
    by_cases he : e.1 = k
    · cases hS : S k with
      | true =>
        have hSe : S e.1 = true := by rw [he]; exact hS
        rw [List.filter_cons, if_pos hSe, GoMap.get_cons, if_pos he, if_pos he]
        simp
      | false =>
        have hSe : S e.1 = false := by rw [he]; exact hS
        rw [hS] at ih
        simp only [Bool.false_eq_true, if_false] at ih ⊢
        simp only [List.filter_cons, hSe, Bool.false_eq_true, if_false]
        exact ih
    · rw [if_neg he]
      cases hSe : S e.1 with
      | true =>
        simp only [List.filter_cons, hSe, if_true, GoMap.get_cons, he, if_false]
        exact ih
      | false =>
        simp only [List.filter_cons, hSe, Bool.false_eq_true, if_false]
        exact ih

/-- C7: with an empty argument list `getWork` returns the job set unchanged; with a
non-empty one it returns exactly the entries of the job set whose key occurs in the
arguments, each with its original `Tool` value and no other entry: the result is the
job set filtered by membership of the key in the arguments, an entry is in the result
exactly when it is in the job set and its key is in the arguments, and a lookup in the
result gives the original value for a key in the arguments and nothing otherwise. -/
theorem getWork_spec (tools : GoMap Tool) (args : List GoString) :
    (args = [] → getWork tools args = tools) ∧
    (args ≠ [] →
      getWork tools args = tools.filter (fun e => decide (e.1 ∈ args)) ∧
      (∀ (name : GoString) (tool : Tool),
        (name, tool) ∈ getWork tools args ↔ (name, tool) ∈ tools ∧ name ∈ args) ∧
      (∀ name : GoString,
        (getWork tools args).get name = if name ∈ args then tools.get name else none)) := by
  constructor
  · intro h
    simp [getWork, h]
  · intro h
    rw [getWork_eq_filter tools args h]
    refine ⟨rfl, ?_, ?_⟩
    · intro name tool
      simp [List.mem_filter]
    · intro name
      rw [GoMap.get_filter_key tools (fun k => decide (k ∈ args)) name]
      simp

/-- The job set with keys a, b, c and the arguments [b] give the job set with key b
alone; with no arguments the job set is unchanged. -/
theorem getWork_example :
    getWork
      [("a".toList, { Cmd := [], Clone := false, Build := [] }),
       ("b".toList, { Cmd := "bee".toList, Clone := true, Build := ["make".toList] }),
       ("c".toList, { Cmd := [], Clone := true, Build := [] })]
      ["b".toList]
    = [("b".toList, { Cmd := "bee".toList, Clone := true, Build := ["make".toList] })] ∧
    getWork
      [("a".toList, { Cmd := [], Clone := false, Build := [] }),
       ("b".toList, { Cmd := "bee".toList, Clone := true, Build := ["make".toList] })]
      []
    = [("a".toList, { Cmd := [], Clone := false, Build := [] }),
       ("b".toList, { Cmd := "bee".toList, Clone := true, Build := ["make".toList] })] := by
  decide

/-! ### The scheduling loop -/

theorem admission_eq_true_iff (load : ℚ) (cpus running : Int) :
    admission load cpus running = true ↔ load ≤ 2 * (cpus : ℚ) ∧ running < 4 := by
  simp [admission]

theorem advance_countP (P : Phase → Bool) (p q : Phase) (i : Nat) (js js2 : List Job)
    (h : advance p q i js = some js2) :
    js2.countP (fun j => P j.phase) + (if P p = true then 1 else 0)
      = js.countP (fun j => P j.phase) + (if P q = true then 1 else 0) := by
  induction js generalizing i js2 with
  | nil => simp [advance] at h
  | cons j rest ih =>
    cases i with
    | zero =>
      simp only [advance] at h
      split at h
      · rename_i hp
        simp only [Option.some.injEq] at h
        subst h
        simp only [List.countP_cons, hp]
        omega
      · simp at h
    | succ k =>
      simp only [advance, Option.map_eq_some'] at h
      obtain ⟨js3, h3, rfl⟩ := h
      have := ih k js3 h3
      simp only [List.countP_cons]
      omega

theorem advance_entries (p q : Phase) (i : Nat) (js js2 : List Job)
    (h : advance p q i js = some js2) :
    js2.map (fun j => (j.name, j.toolcfg)) = js.map (fun j => (j.name, j.toolcfg)) := by
  induction js generalizing i js2 with
  | nil => simp [advance] at h
  | cons j rest ih =>
    cases i with
    | zero =>
      simp only [advance] at h
      split at h
      · simp only [Option.some.injEq] at h
        subst h
        rfl
      · simp at h
    | succ k =>
      simp only [advance, Option.map_eq_some'] at h
      obtain ⟨js3, h3, rfl⟩ := h
      simp only [List.map_cons, ih k js3 h3]

theorem Inv_start (work : List (GoString × Tool)) : Inv work (start work) := by
  by_cases hw : work = []
  · constructor <;> simp [start, hw, active, unsignalled, launched, pendingInc, pendingAdd,
      reserved, dispatching]
  · constructor <;> simp [start, hw, active, unsignalled, launched, pendingInc, pendingAdd,
      reserved, dispatching]

theorem Inv_step (cpus : Int) (work : List (GoString × Tool)) (s s2 : Sched) (e : Event)
    (hinv : Inv work s) (h : step cpus s e = some s2) : Inv work s2 := by
  obtain ⟨h1, h2, h3, h4, h5, h6, h7⟩ := hinv
  obtain ⟨pending, pc, running, wg, jobs, warnings, ticks⟩ := s
  dsimp only [active, unsignalled, launched] at h1 h2 h3 h4 h5 h6 h7
  cases e with
  | avg load =>
    simp only [step] at h
    split at h
    · rename_i hpc
      subst hpc
      dsimp only [pendingInc, pendingAdd, reserved, dispatching] at h1 h2 h3 h5
      cases load with
      | none =>
        simp only [Option.some.injEq] at h
        subst h
        refine ⟨?_, ?_, ?_, h4, ?_, ?_, ?_⟩ <;>
          dsimp only [active, unsignalled, launched, pendingInc, pendingAdd, reserved,
            dispatching]
        · exact h1
        · exact h2
        · exact h3
        · intro hh; cases hh
        · intro hh; rcases hh with hh | hh <;> cases hh
        · intro hh; cases hh
      | some l =>
        simp only at h
        split at h
        · rename_i hadm
          have hlt := ((admission_eq_true_iff l cpus running).mp hadm).2
          simp only [Option.some.injEq] at h
          subst h
          refine ⟨?_, ?_, ?_, h4, ?_, ?_, ?_⟩ <;>
            dsimp only [active, unsignalled, launched, pendingInc, pendingAdd, reserved,
              dispatching]
          · exact h1
          · exact h2
          · omega
          · intro _; exact h5 rfl
          · intro hh; rcases hh with hh | hh <;> cases hh
          · intro hh; cases hh
        · simp only [Option.some.injEq] at h
          subst h
          exact ⟨h1, h2, h3, h4, h5, h6, h7⟩
    · simp at h
  | inc =>
    simp only [step] at h
    split at h
    · rename_i hpc
      subst hpc
      dsimp only [pendingInc, pendingAdd, reserved, dispatching] at h1 h2 h3 h5
      simp only [Option.some.injEq] at h
      subst h
      refine ⟨?_, ?_, ?_, h4, ?_, ?_, ?_⟩ <;>
        dsimp only [active, unsignalled, launched, pendingInc, pendingAdd, reserved,
          dispatching]
      · omega
      · exact h2
      · omega
      · intro _; exact h5 rfl
      · intro hh; rcases hh with hh | hh <;> cases hh
      · intro hh; cases hh
    · simp at h
  | add =>
    simp only [step] at h
    split at h
    · rename_i hpc
      subst hpc
      dsimp only [pendingInc, pendingAdd, reserved, dispatching] at h1 h2 h3 h5
      simp only [Option.some.injEq] at h
      subst h
      refine ⟨?_, ?_, ?_, h4, ?_, ?_, ?_⟩ <;>
        dsimp only [active, unsignalled, launched, pendingInc, pendingAdd, reserved,
          dispatching]
      · exact h1
      · omega
      · omega
      · intro _; exact h5 rfl
      · intro hh; rcases hh with hh | hh <;> cases hh
      · intro hh; cases hh
    · simp at h
  | spawn =>
    simp only [step] at h
    split at h
    · rename_i hpc
      subst hpc
      dsimp only [pendingInc, pendingAdd, reserved, dispatching] at h1 h2 h3 h5
      cases pending with
      | nil => simp at h
      | cons ent rest =>
        obtain ⟨name, toolcfg⟩ := ent
        simp only [Option.some.injEq] at h
        subst h
        have hent : List.map (fun j => (j.name, j.toolcfg))
            (jobs ++ [{ name := name, toolcfg := toolcfg, phase := Phase.building }]) ++ rest
            = work := by
          rw [← h4]
          simp
        have hact : List.countP (fun j => j.phase != Phase.exited)
            (jobs ++ [{ name := name, toolcfg := toolcfg, phase := Phase.building }])
            = List.countP (fun j => j.phase != Phase.exited) jobs + 1 := by
          simp [List.countP_append]
        have huns : List.countP (fun j => j.phase == Phase.building || j.phase == Phase.built)
            (jobs ++ [{ name := name, toolcfg := toolcfg, phase := Phase.building }])
            = List.countP (fun j => j.phase == Phase.building || j.phase == Phase.built) jobs
              + 1 := by
          simp [List.countP_append]
        by_cases hr : rest = []
        · subst hr
          simp only [if_true]
          refine ⟨?_, ?_, ?_, hent, ?_, ?_, ?_⟩ <;>
            dsimp only [active, unsignalled, launched, pendingInc, pendingAdd, reserved,
              dispatching]
          · omega
          · omega
          · omega
          · intro hh; cases hh
          · intro _; trivial
          · intro hh; cases hh
        · simp only [hr, if_false]
          refine ⟨?_, ?_, ?_, hent, ?_, ?_, ?_⟩ <;>
            dsimp only [active, unsignalled, launched, pendingInc, pendingAdd, reserved,
              dispatching]
          · omega
          · omega
          · omega
          · intro _; exact hr
          · intro hh; rcases hh with hh | hh <;> cases hh
          · intro hh; cases hh
    · simp at h
  | wait =>
    simp only [step] at h
    split at h
    · rename_i hpc
      obtain ⟨hpc, hwg⟩ := hpc
      subst hpc
      dsimp only [pendingInc, pendingAdd, reserved, dispatching] at h1 h2 h3 h5
      simp only [Option.some.injEq] at h
      subst h
      refine ⟨?_, ?_, ?_, h4, ?_, ?_, ?_⟩ <;>
        dsimp only [active, unsignalled, launched, pendingInc, pendingAdd, reserved,
          dispatching]
      · exact h1
      · exact h2
      · exact h3
      · intro hh; cases hh
      · intro _; exact h6 (Or.inl rfl)
      · intro _; exact hwg
    · simp at h
  | buildReturns i err =>
    simp only [step] at h
    split at h
    · rename_i js j hadv hj
      have ha := advance_countP (fun ph => ph != Phase.exited) _ _ i jobs js hadv
      have hu := advance_countP (fun ph => ph == Phase.building || ph == Phase.built)
        _ _ i jobs js hadv
      have hl := advance_entries _ _ i jobs js hadv
      simp at ha hu
      simp only [Option.some.injEq] at h
      subst h
      refine ⟨?_, ?_, ?_, ?_, h5, h6, ?_⟩ <;> dsimp only [active, unsignalled, launched]
      · omega
      · omega
      · exact h3
      · rw [hl]; exact h4
      · intro hh
        have := h7 hh
        omega
    · simp at h
  | done i =>
    simp only [step] at h
    split at h
    · rename_i js hadv
      have ha := advance_countP (fun ph => ph != Phase.exited) _ _ i jobs js hadv
      have hu := advance_countP (fun ph => ph == Phase.building || ph == Phase.built)
        _ _ i jobs js hadv
      have hl := advance_entries _ _ i jobs js hadv
      simp at ha hu
      simp only [Option.some.injEq] at h
      subst h
      refine ⟨?_, ?_, ?_, ?_, h5, h6, ?_⟩ <;> dsimp only [active, unsignalled, launched]
      · omega
      · omega
      · exact h3
      · rw [hl]; exact h4
      · intro hh
        have := h7 hh
        omega
    · simp at h
  | dec i =>
    simp only [step] at h
    split at h
    · rename_i js hadv
      have ha := advance_countP (fun ph => ph != Phase.exited) _ _ i jobs js hadv
      have hu := advance_countP (fun ph => ph == Phase.building || ph == Phase.built)
        _ _ i jobs js hadv
      have hl := advance_entries _ _ i jobs js hadv
      simp at ha hu
      simp only [Option.some.injEq] at h
      subst h
      refine ⟨?_, ?_, ?_, ?_, h5, h6, ?_⟩ <;> dsimp only [active, unsignalled, launched]
      · omega
      · omega
      · omega
      · rw [hl]; exact h4
      · intro hh
        have := h7 hh
        omega
    · simp at h

theorem Inv_reachable (cpus : Int) (work : List (GoString × Tool)) (s : Sched)
    (h : Reachable cpus work s) : Inv work s := by
  induction h with
  | start => exact Inv_start work
  | step _ hstep ih => exact Inv_step cpus work _ _ _ ih hstep

theorem reachable_of_run (cpus : Int) (work : List (GoString × Tool)) (es : List Event)
    (s s2 : Sched) (hs : Reachable cpus work s) (h : run cpus es s = some s2) :
    Reachable cpus work s2 := by
  induction es generalizing s with
  | nil =>
    simp only [run, Option.some.injEq] at h
    exact h ▸ hs
  | cons e rest ih =>
    simp only [run] at h
    cases hstep : step cpus s e with
    | none => simp [hstep] at h
    | some s3 =>
      rw [hstep] at h
      exact ih s3 (Reachable.step hs hstep) h

theorem inBuild_le_active (s : Sched) : inBuild s ≤ active s := by
  unfold inBuild active
  apply List.countP_mono_left
  intro j _ hj
  simp only [beq_iff_eq] at hj
  simp [hj]

/-- C1: in every reachable state of the scheduling loop, whatever the job set, at most
4 goroutines have been started and have not yet decremented `running` (so at most 4
calls of `Build` are in progress); `running` itself is at most 4 and is the number of
those goroutines, plus one while the dispatcher is between its increment and the `go`
statement. -/
theorem running_jobs_at_most_four (cpus : Int) (work : List (GoString × Tool)) (s : Sched)
    (h : Reachable cpus work s) :
    active s ≤ 4 ∧ inBuild s ≤ 4 ∧ s.running ≤ 4 ∧
    s.running = (active s : Int) + (pendingInc s.pc : Int) := by
  have hinv := Inv_reachable cpus work s h
  have h1 := hinv.running_eq
  have h3 := hinv.cap
  have h4 := inBuild_le_active s
  refine ⟨?_, ?_, ?_, h1⟩ <;> omega

/-- With five tools and no load, the dispatch of the first four reaches a state with 4
goroutines running, where the bound is attained. -/
theorem running_jobs_at_most_four_witness :
    Reachable 1 exFive exBusy ∧ active exBusy = 4 ∧
    (active exBusy ≤ 4 ∧ inBuild exBusy ≤ 4 ∧ exBusy.running ≤ 4 ∧
      exBusy.running = (active exBusy : Int) + (pendingInc exBusy.pc : Int)) :=
  have hrun : run 1 (exDispatch ++ exDispatch ++ exDispatch ++ exDispatch) (start exFive)
      = some exBusy := by decide!
  have hreach : Reachable 1 exFive exBusy :=
    reachable_of_run 1 exFive _ _ _ Reachable.start hrun
  ⟨hreach, by decide, running_jobs_at_most_four 1 exFive exBusy hreach⟩

/-- When `toolBuild` has returned nil, every goroutine it started has returned from
`Build` and called `waitgroup.Done()`, and a goroutine was started for every entry of
the job set. -/
theorem returned_nil_joined (cpus : Int) (work : List (GoString × Tool)) (s : Sched)
    (h : Reachable cpus work s) (hret : s.pc = Pc.returned false) :
    unsignalled s = 0 ∧ inBuild s = 0 ∧ launched s = work := by
  have hinv := Inv_reachable cpus work s h
  have h2 := hinv.wg_eq
  have h7 := hinv.joined hret
  have h6 := hinv.over (Or.inr hret)
  have h4 := hinv.entries
  have hu : unsignalled s = 0 := by omega
  have hb : inBuild s ≤ unsignalled s := by
    unfold inBuild unsignalled
    apply List.countP_mono_left
    intro j _ hj
    simp only [beq_iff_eq] at hj
    simp [hj]
  refine ⟨hu, by omega, ?_⟩
  rw [h6, List.append_nil] at h4
  exact h4

/-- C3 (counterexample): two reachable states in which `toolBuild` has returned while a
goroutine it started is not over. In the first, the first of five tools was dispatched
and is still in `Build` when `load.Avg()` fails for the second: `toolBuild` has returned
the error, and the wait group is not at zero. In the second, `toolBuild` has returned
nil for a job set of one tool whose goroutine has called `waitgroup.Done()` and has not
yet decremented `running`. -/
theorem toolBuild_returns_before_join :
    (run 1 (exDispatch ++ [Event.avg none]) (start exFive) = some exAbandoned ∧
      Reachable 1 exFive exAbandoned ∧
      exAbandoned.pc = Pc.returned true ∧ inBuild exAbandoned = 1 ∧ exAbandoned.wg = 1) ∧
    (run 1 (exDispatch ++ [Event.buildReturns 0 false, Event.done 0, Event.wait]) (start exOne)
        = some exJoined ∧
      Reachable 1 exOne exJoined ∧
      exJoined.pc = Pc.returned false ∧ active exJoined = 1 ∧ exJoined.running = 1) :=
  have hrun : run 1 (exDispatch ++ [Event.avg none]) (start exFive) = some exAbandoned := by
    decide!
  have hrun2 : run 1 (exDispatch ++ [Event.buildReturns 0 false, Event.done 0, Event.wait])
      (start exOne) = some exJoined := by
    decide!
  ⟨⟨hrun, reachable_of_run 1 exFive _ _ _ Reachable.start hrun, rfl, by decide, rfl⟩,
    ⟨hrun2, reachable_of_run 1 exOne _ _ _ Reachable.start hrun2, rfl, by decide, rfl⟩⟩

/-- C3 (amended): in every reachable state of the loop in which `toolBuild` has returned
nil, a goroutine was started for every entry of the job set and each of them has
returned from `Build` and called `waitgroup.Done()`: it is past `Done`, with at most
its decrement of `running` left. And in every reachable state in which the dispatcher
polls, a failed `load.Avg()` makes `toolBuild` return the error at once, leaving the
goroutines as they are. -/
theorem toolBuild_nil_return_joined (cpus : Int) (work : List (GoString × Tool)) (s : Sched)
    (h : Reachable cpus work s) :
    (s.pc = Pc.returned false →
      launched s = work ∧ inBuild s = 0 ∧
      ∀ j, j ∈ s.jobs → j.phase = Phase.signalled ∨ j.phase = Phase.exited) ∧
    (s.pc = Pc.poll →
      step cpus s (Event.avg none) = some { s with pc := Pc.returned true }) := by
  constructor
  · intro hret
    obtain ⟨hu, hb, hl⟩ := returned_nil_joined cpus work s h hret
    refine ⟨hl, hb, ?_⟩
    intro j hj
    have hnot := (List.countP_eq_zero.mp hu) j hj
    cases hph : j.phase with
    | building => simp [hph] at hnot
    | built => simp [hph] at hnot
    | signalled => exact Or.inl rfl
    | exited => exact Or.inr rfl
  · intro hpc
    simp only [step, hpc, if_true]

/-- The nil return for one tool: its goroutine is past `waitgroup.Done()`, and has its
decrement of `running` left. And a failed `load.Avg()` at the first poll for five tools
makes `toolBuild` return the error at once. -/
theorem toolBuild_nil_return_joined_witness :
    Reachable 1 exOne exJoined ∧ exJoined.pc = Pc.returned false ∧
    (launched exJoined = exOne ∧ inBuild exJoined = 0 ∧
      ∀ j, j ∈ exJoined.jobs → j.phase = Phase.signalled ∨ j.phase = Phase.exited) ∧
    Reachable 1 exFive (start exFive) ∧ (start exFive).pc = Pc.poll ∧
    step 1 (start exFive) (Event.avg none)
      = some { start exFive with pc := Pc.returned true } :=
  have hrun : run 1 (exDispatch ++ [Event.buildReturns 0 false, Event.done 0, Event.wait])
      (start exOne) = some exJoined := by
    decide!
  have hreach : Reachable 1 exOne exJoined :=
    reachable_of_run 1 exOne _ _ _ Reachable.start hrun
  ⟨hreach, rfl, (toolBuild_nil_return_joined 1 exOne exJoined hreach).1 rfl,
    Reachable.start, rfl,
    (toolBuild_nil_return_joined 1 exFive (start exFive) Reachable.start).2 rfl⟩

theorem step_avg_poll (cpus : Int) (s : Sched) (load : ℚ) (hpc : s.pc = Pc.poll) :
    step cpus s (Event.avg (some load))
      = some (if load ≤ 2 * (cpus : ℚ) ∧ s.running < 4 then { s with pc := Pc.admitted }
              else s) := by
  simp only [step, hpc, if_true]
  by_cases h : load ≤ 2 * (cpus : ℚ) ∧ s.running < 4
  · rw [if_pos ((admission_eq_true_iff _ _ _).mpr h), if_pos h]
  · rw [if_neg (fun hh => h ((admission_eq_true_iff _ _ _).mp hh)), if_neg h]

theorem run_dispatch (cpus : Int) (s : Sched) (load : ℚ) (ent : GoString × Tool)
    (rest : List (GoString × Tool)) (hpc : s.pc = Pc.poll) (hpend : s.pending = ent :: rest)
    (hload : load ≤ 2 * (cpus : ℚ)) (hrun : s.running < 4) :
    ∃ s2, run cpus [Event.avg (some load), Event.inc, Event.add, Event.spawn] s = some s2 ∧
      launched s2 = launched s ++ [ent] ∧ s2.running = s.running + 1 ∧
      s2.pending = rest := by
  obtain ⟨name, toolcfg⟩ := ent
  simp only [run, step_avg_poll cpus s load hpc, if_pos (And.intro hload hrun)]
  simp [step, hpend, launched]

/-- C4: the admission check grants admission exactly when the load is at most 2 times
the CPU count and `running` is below 4. A poll of the loop in a state with that value
of `running` leaves the loop when the check grants admission, and the dispatcher goes
on to count the job and start its goroutine; otherwise the poll changes nothing: the
dispatcher stays in the polling loop. In particular no number of polls with loads above
2 times the CPU count starts a job or changes the state. -/
theorem admission_check (load : ℚ) (cpus running : Int) :
    (admission load cpus running = true ↔ load ≤ 2 * (cpus : ℚ) ∧ running < 4) ∧
    (∀ s : Sched, s.pc = Pc.poll → s.running = running →
      step cpus s (Event.avg (some load))
        = some (if load ≤ 2 * (cpus : ℚ) ∧ running < 4 then { s with pc := Pc.admitted }
                else s)) ∧
    (∀ (s : Sched) (ent : GoString × Tool) (rest : List (GoString × Tool)),
      s.pc = Pc.poll → s.running = running → s.pending = ent :: rest →
      load ≤ 2 * (cpus : ℚ) → running < 4 →
      ∃ s2, run cpus [Event.avg (some load), Event.inc, Event.add, Event.spawn] s = some s2 ∧
        launched s2 = launched s ++ [ent] ∧ s2.running = running + 1 ∧ s2.pending = rest) ∧
    (∀ (s : Sched) (loads : List ℚ), s.pc = Pc.poll →
      (∀ l, l ∈ loads → 2 * (cpus : ℚ) < l) →
      run cpus (loads.map (fun l => Event.avg (some l))) s = some s) := by
  refine ⟨admission_eq_true_iff load cpus running, ?_, ?_, ?_⟩
  · intro s hpc hr
    rw [step_avg_poll cpus s load hpc, hr]
  · intro s ent rest hpc hr hpend hload hlt
    have h := run_dispatch cpus s load ent rest hpc hpend hload (hr ▸ hlt)
    rw [hr] at h
    exact h
  · intro s loads hpc hall
    induction loads with
    | nil => rfl
    | cons l rest ih =>
      have hl : ¬ (l ≤ 2 * (cpus : ℚ) ∧ s.running < 4) :=
        fun hh => absurd hh.1 (not_le.mpr (hall l (List.mem_cons_self l rest)))
      simp only [List.map_cons, run, step_avg_poll cpus s l hpc, if_neg hl]
      exact ih (fun l2 h2 => hall l2 (List.mem_cons_of_mem l h2))

/-! ### Executions under a fair schedule -/

theorem step_stepsLeft (cpus : Int) (s s2 : Sched) (e : Event)
    (h : step cpus s e = some s2) :
    stepsLeft s2 < stepsLeft s ∨ (s2 = s ∧ ∃ l, e = Event.avg (some l)) := by
  obtain ⟨pending, pc, running, wg, jobs, warnings, ticks⟩ := s
  cases e with
  | avg load =>
    simp only [step] at h
    split at h
    · rename_i hpc
      subst hpc
      cases load with
      | none =>
        simp only [Option.some.injEq] at h
        subst h
        left
        simp [stepsLeft, active, unsignalled, inBuild, pcLeft]
      | some l =>
        simp only at h
        split at h
        · simp only [Option.some.injEq] at h
          subst h
          left
          simp [stepsLeft, active, unsignalled, inBuild, pcLeft]
        · simp only [Option.some.injEq] at h
          exact Or.inr ⟨h.symm, l, rfl⟩
    · simp at h
  | inc =>
    simp only [step] at h
    split at h
    · rename_i hpc
      subst hpc
      simp only [Option.some.injEq] at h
      subst h
      left
      simp [stepsLeft, active, unsignalled, inBuild, pcLeft]
    · simp at h
  | add =>
    simp only [step] at h
    split at h
    · rename_i hpc
      subst hpc
      simp only [Option.some.injEq] at h
      subst h
      left
      simp [stepsLeft, active, unsignalled, inBuild, pcLeft]
    · simp at h
  | spawn =>
    simp only [step] at h
    split at h
    · rename_i hpc
      subst hpc
      cases pending with
      | nil => simp at h
      | cons ent rest =>
        obtain ⟨name, toolcfg⟩ := ent
        simp only [Option.some.injEq] at h
        subst h
        left
        by_cases hr : rest = []
        · subst hr
          simp [stepsLeft, active, unsignalled, inBuild, pcLeft, List.countP_append]
          omega
        · simp [stepsLeft, active, unsignalled, inBuild, pcLeft, List.countP_append, hr]
          omega
    · simp at h
  | wait =>
    simp only [step] at h
    split at h
    · rename_i hpc
      obtain ⟨hpc, hwg⟩ := hpc
      subst hpc
      simp only [Option.some.injEq] at h
      subst h
      left
      simp [stepsLeft, active, unsignalled, inBuild, pcLeft]
    · simp at h
  | buildReturns i err =>
    simp only [step] at h
    split at h
    · rename_i js j hadv hj
      have ha := advance_countP (fun ph => ph != Phase.exited) _ _ i jobs js hadv
      have hu := advance_countP (fun ph => ph == Phase.building || ph == Phase.built)
        _ _ i jobs js hadv
      have hb := advance_countP (fun ph => ph == Phase.building) _ _ i jobs js hadv
      simp at ha hu hb
      simp only [Option.some.injEq] at h
      subst h
      left
      dsimp only [stepsLeft, active, unsignalled, inBuild]
      omega
    · simp at h
  | done i =>
    simp only [step] at h
    split at h
    · rename_i js hadv
      have ha := advance_countP (fun ph => ph != Phase.exited) _ _ i jobs js hadv
      have hu := advance_countP (fun ph => ph == Phase.building || ph == Phase.built)
        _ _ i jobs js hadv
      have hb := advance_countP (fun ph => ph == Phase.building) _ _ i jobs js hadv
      simp at ha hu hb
      simp only [Option.some.injEq] at h
      subst h
      left
      dsimp only [stepsLeft, active, unsignalled, inBuild]
      omega
    · simp at h
  | dec i =>
    simp only [step] at h
    split at h
    · rename_i js hadv
      have ha := advance_countP (fun ph => ph != Phase.exited) _ _ i jobs js hadv
      have hu := advance_countP (fun ph => ph == Phase.building || ph == Phase.built)
        _ _ i jobs js hadv
      have hb := advance_countP (fun ph => ph == Phase.building) _ _ i jobs js hadv
      simp at ha hu hb
      simp only [Option.some.injEq] at h
      subst h
      left
      dsimp only [stepsLeft, active, unsignalled, inBuild]
      omega
    · simp at h

theorem countP_pos_getElem (P : Job → Bool) (js : List Job) (h : 0 < js.countP P) :
    ∃ (i : Nat) (j : Job), js[i]? = some j ∧ P j = true := by
  obtain ⟨a, ha, hp⟩ := List.countP_pos_iff.mp h
  obtain ⟨i, hi⟩ := List.getElem?_of_mem ha
  exact ⟨i, a, hi, hp⟩

theorem advance_some (p q : Phase) (i : Nat) (js : List Job) (j : Job)
    (hj : js[i]? = some j) (hp : j.phase = p) : ∃ js2, advance p q i js = some js2 := by
  induction js generalizing i with
  | nil => simp at hj
  | cons a rest ih =>
    cases i with
    | zero =>
      simp only [List.getElem?_cons_zero, Option.some.injEq] at hj
      subst hj
      exact ⟨{ a with phase := q } :: rest, by simp only [advance, hp, if_true]⟩
    | succ k =>
      simp only [List.getElem?_cons_succ] at hj
      obtain ⟨js3, h3⟩ := ih k hj
      exact ⟨a :: js3, by simp only [advance, h3, Option.map_some']⟩

theorem job_index_lt (work : List (GoString × Tool)) (s : Sched) (hinv : Inv work s)
    (i : Nat) (j : Job) (hj : s.jobs[i]? = some j) : i < work.length := by
  have hlen : i < s.jobs.length := by
    by_contra hge
    rw [List.getElem?_eq_none (Nat.le_of_not_lt hge)] at hj
    cases hj
  have h4 := congrArg List.length hinv.entries
  simp only [launched, List.length_append, List.length_map] at h4
  omega

theorem job_progress (cpus : Int) (work : List (GoString × Tool)) (sched : Nat → Event)
    (s : Sched) (hu : Unstarved sched work.length)
    (hb : BuildsReturn sched work.length) (hinv : Inv work s) (i : Nat) (j : Job)
    (hj : s.jobs[i]? = some j) (hne : j.phase ≠ Phase.exited) :
    ∃ C : Event → Prop, Often sched C ∧
      ∀ e, C e → ∃ s2, step cpus s e = some s2 ∧ stepsLeft s2 < stepsLeft s := by
  have hi := job_index_lt work s hinv i j hj
  cases hph : j.phase with
  | building =>
    refine ⟨_, hb i hi, ?_⟩
    rintro e ⟨err, rfl⟩
    obtain ⟨js2, hadv⟩ := advance_some Phase.building Phase.built i s.jobs j hj hph
    have hstep : ∃ s2, step cpus s (Event.buildReturns i err) = some s2 := by
      simp only [step, hadv, hj]
      exact ⟨_, rfl⟩
    obtain ⟨s2, h2⟩ := hstep
    rcases step_stepsLeft cpus s s2 _ h2 with h | ⟨_, l, hl⟩
    · exact ⟨s2, h2, h⟩
    · cases hl
  | built =>
    refine ⟨_, hu.done i hi, ?_⟩
    rintro e rfl
    obtain ⟨js2, hadv⟩ := advance_some Phase.built Phase.signalled i s.jobs j hj hph
    have hstep : ∃ s2, step cpus s (Event.done i) = some s2 := by
      simp only [step, hadv]
      exact ⟨_, rfl⟩
    obtain ⟨s2, h2⟩ := hstep
    rcases step_stepsLeft cpus s s2 _ h2 with h | ⟨_, l, hl⟩
    · exact ⟨s2, h2, h⟩
    · cases hl
  | signalled =>
    refine ⟨_, hu.dec i hi, ?_⟩
    rintro e rfl
    obtain ⟨js2, hadv⟩ := advance_some Phase.signalled Phase.exited i s.jobs j hj hph
    have hstep : ∃ s2, step cpus s (Event.dec i) = some s2 := by
      simp only [step, hadv]
      exact ⟨_, rfl⟩
    obtain ⟨s2, h2⟩ := hstep
    rcases step_stepsLeft cpus s s2 _ h2 with h | ⟨_, l, hl⟩
    · exact ⟨s2, h2, h⟩
    · cases hl
  | exited => exact absurd hph hne

theorem dispatcher_progress (cpus : Int) (s : Sched) (e : Event)
    (hstep : ∃ s2, step cpus s e = some s2) (he : ∀ l, e ≠ Event.avg (some l)) :
    ∃ s2, step cpus s e = some s2 ∧ stepsLeft s2 < stepsLeft s := by
  obtain ⟨s2, h2⟩ := hstep
  rcases step_stepsLeft cpus s s2 _ h2 with h | ⟨_, l, hl⟩
  · exact ⟨s2, h2, h⟩
  · exact absurd hl (he l)

/-- In a state of the loop in which `toolBuild` has not returned, some class of events
that the schedule brings again and again can happen and takes a step forward. -/
theorem progress_class (cpus : Int) (work : List (GoString × Tool)) (sched : Nat → Event)
    (s : Sched) (hu : Unstarved sched work.length)
    (hb : BuildsReturn sched work.length) (hl : LoadOften cpus sched)
    (hinv : Inv work s) (hpc : ∀ b, s.pc ≠ Pc.returned b) :
    ∃ C : Event → Prop, Often sched C ∧
      ∀ e, C e → ∃ s2, step cpus s e = some s2 ∧ stepsLeft s2 < stepsLeft s := by
  cases hp : s.pc with
  | poll =>
    by_cases hr : s.running < 4
    · refine ⟨_, hl, ?_⟩
      rintro e ⟨l, rfl, hle⟩
      have hstep := step_avg_poll cpus s l hp
      rw [if_pos ⟨hle, hr⟩] at hstep
      refine ⟨_, hstep, ?_⟩
      simp [stepsLeft, active, unsignalled, inBuild, pcLeft, hp]
    · have h1 := hinv.running_eq
      rw [hp] at h1
      simp only [pendingInc] at h1
      have hpos : 0 < s.jobs.countP (fun j => j.phase != Phase.exited) := by
        unfold active at h1
        omega
      obtain ⟨i, j, hj, hP⟩ := countP_pos_getElem _ s.jobs hpos
      exact job_progress cpus work sched s hu hb hinv i j hj (by simpa using hP)
  | admitted =>
    refine ⟨_, hu.inc, ?_⟩
    rintro e rfl
    exact dispatcher_progress cpus s _ (by simp only [step, hp, if_true]; exact ⟨_, rfl⟩)
      (fun l hh => by cases hh)
  | counted =>
    refine ⟨_, hu.add, ?_⟩
    rintro e rfl
    exact dispatcher_progress cpus s _ (by simp only [step, hp, if_true]; exact ⟨_, rfl⟩)
      (fun l hh => by cases hh)
  | added =>
    refine ⟨_, hu.spawn, ?_⟩
    rintro e rfl
    have hmore := hinv.more (by rw [hp]; rfl)
    cases hpend : s.pending with
    | nil => exact absurd hpend hmore
    | cons ent rest =>
      exact dispatcher_progress cpus s _
        (by simp only [step, hp, if_true, hpend]; exact ⟨_, rfl⟩) (fun l hh => by cases hh)
  | waiting =>
    by_cases hwg : s.wg = 0
    · refine ⟨_, hu.wait, ?_⟩
      rintro e rfl
      exact dispatcher_progress cpus s _
        (by simp only [step, hp, hwg, and_self, if_true]; exact ⟨_, rfl⟩)
        (fun l hh => by cases hh)
    · have h2 := hinv.wg_eq
      rw [hp] at h2
      simp only [pendingAdd] at h2
      have hpos : 0 < s.jobs.countP
          (fun j => j.phase == Phase.building || j.phase == Phase.built) := by
        unfold unsignalled at h2
        omega
      obtain ⟨i, j, hj, hP⟩ := countP_pos_getElem _ s.jobs hpos
      refine job_progress cpus work sched s hu hb hinv i j hj ?_
      intro hex
      rw [hex] at hP
      simp at hP
  | returned b => exact absurd hp (hpc b)

theorem exec_reachable (cpus : Int) (work : List (GoString × Tool)) (sched : Nat → Event)
    (n : Nat) : Reachable cpus work (exec cpus sched (start work) n) := by
  induction n with
  | zero => exact Reachable.start
  | succ k ih =>
    show Reachable cpus work (next cpus (exec cpus sched (start work) k) (sched k))
    unfold next
    cases hstep : step cpus (exec cpus sched (start work) k) (sched k) with
    | none => exact ih
    | some s2 => exact Reachable.step ih hstep

theorem step_not_failed (cpus : Int) (s s2 : Sched) (e : Event)
    (h : step cpus s e = some s2) (he : e ≠ Event.avg none)
    (hpc : s.pc ≠ Pc.returned true) : s2.pc ≠ Pc.returned true := by
  cases e with
  | avg load =>
    cases load with
    | none => exact absurd rfl he
    | some l =>
      simp only [step] at h
      split at h
      · split at h
        · simp only [Option.some.injEq] at h
          subst h
          simp
        · simp only [Option.some.injEq] at h
          subst h
          exact hpc
      · simp at h
  | inc =>
    simp only [step] at h
    split at h
    · simp only [Option.some.injEq] at h
      subst h
      simp
    · simp at h
  | add =>
    simp only [step] at h
    split at h
    · simp only [Option.some.injEq] at h
      subst h
      simp
    · simp at h
  | spawn =>
    simp only [step] at h
    split at h
    · split at h
      · simp at h
      · simp only [Option.some.injEq] at h
        subst h
        dsimp only
        split <;> simp
    · simp at h
  | wait =>
    simp only [step] at h
    split at h
    · simp only [Option.some.injEq] at h
      subst h
      simp
    · simp at h
  | buildReturns i err =>
    simp only [step] at h
    split at h
    · simp only [Option.some.injEq] at h
      subst h
      exact hpc
    · simp at h
  | done i =>
    simp only [step] at h
    split at h
    · simp only [Option.some.injEq] at h
      subst h
      exact hpc
    · simp at h
  | dec i =>
    simp only [step] at h
    split at h
    · simp only [Option.some.injEq] at h
      subst h
      exact hpc
    · simp at h

theorem exec_not_failed (cpus : Int) (work : List (GoString × Tool)) (sched : Nat → Event)
    (hsam : Sampled sched) (n : Nat) :
    (exec cpus sched (start work) n).pc ≠ Pc.returned true := by
  induction n with
  | zero =>
    show (start work).pc ≠ Pc.returned true
    unfold start
    dsimp only
    split <;> simp
  | succ k ih =>
    show (next cpus (exec cpus sched (start work) k) (sched k)).pc ≠ Pc.returned true
    unfold next
    cases hstep : step cpus (exec cpus sched (start work) k) (sched k) with
    | none => exact ih
    | some s2 => exact step_not_failed cpus _ s2 _ hstep (hsam k) ih

theorem exec_progress (cpus : Int) (work : List (GoString × Tool)) (sched : Nat → Event)
    (hu : Unstarved sched work.length)
    (hb : BuildsReturn sched work.length) (hl : LoadOften cpus sched) (n : Nat)
    (hpc : ∀ b, (exec cpus sched (start work) n).pc ≠ Pc.returned b) :
    ∃ m, n < m ∧
      stepsLeft (exec cpus sched (start work) m) < stepsLeft (exec cpus sched (start work) n) := by
  have hinv := Inv_reachable cpus work _ (exec_reachable cpus work sched n)
  obtain ⟨C, hC, hstep⟩ := progress_class cpus work sched _ hu hb hl hinv hpc
  obtain ⟨m, hnm, hCm⟩ := hC n
  have key : ∀ d k, exec cpus sched (start work) k = exec cpus sched (start work) n →
      C (sched (k + d)) →
      ∃ m, k < m ∧ stepsLeft (exec cpus sched (start work) m)
        < stepsLeft (exec cpus sched (start work) n) := by
    intro d
    induction d with
    | zero =>
      intro k hk hCk
      obtain ⟨s2, h2, hlt⟩ := hstep _ hCk
      refine ⟨k + 1, Nat.lt_succ_self k, ?_⟩
      show stepsLeft (next cpus (exec cpus sched (start work) k) (sched k)) < _
      rw [hk]
      unfold next
      rw [Nat.add_zero] at h2
      rw [h2]
      exact hlt
    | succ d ih =>
      intro k hk hCk
      have hnext : exec cpus sched (start work) (k + 1)
          = next cpus (exec cpus sched (start work) k) (sched k) := rfl
      have hidx : k + 1 + d = k + (d + 1) := by omega
      cases hst : step cpus (exec cpus sched (start work) k) (sched k) with
      | none =>
        have hsame : exec cpus sched (start work) (k + 1) = exec cpus sched (start work) n := by
          rw [hnext]
          unfold next
          rw [hst]
          exact hk
        obtain ⟨m2, hm2, hlt⟩ := ih (k + 1) hsame (by rw [hidx]; exact hCk)
        exact ⟨m2, by omega, hlt⟩
      | some s2 =>
        have hs2 : exec cpus sched (start work) (k + 1) = s2 := by
          rw [hnext]
          unfold next
          rw [hst]
          rfl
        rcases step_stepsLeft cpus _ s2 _ hst with hlt | ⟨hsame, _⟩
        · refine ⟨k + 1, Nat.lt_succ_self k, ?_⟩
          rw [hs2, ← hk]
          exact hlt
        · have hsame2 : exec cpus sched (start work) (k + 1)
              = exec cpus sched (start work) n := by
            rw [hs2, hsame]
            exact hk
          obtain ⟨m2, hm2, hlt⟩ := ih (k + 1) hsame2 (by rw [hidx]; exact hCk)
          exact ⟨m2, by omega, hlt⟩
  exact key (m - n) n rfl (by rw [Nat.add_sub_cancel' hnm]; exact hCm)

theorem pcLeft_eq_zero (pc : Pc) (h : pcLeft pc = 0) : ∃ b, pc = Pc.returned b := by
  cases pc with
  | returned b => exact ⟨b, rfl⟩
  | poll => simp [pcLeft] at h
  | admitted => simp [pcLeft] at h
  | counted => simp [pcLeft] at h
  | added => simp [pcLeft] at h
  | waiting => simp [pcLeft] at h

theorem exec_returns (cpus : Int) (work : List (GoString × Tool)) (sched : Nat → Event)
    (hu : Unstarved sched work.length)
    (hb : BuildsReturn sched work.length) (hsam : Sampled sched) (hl : LoadOften cpus sched)
    (k n : Nat) (hk : stepsLeft (exec cpus sched (start work) n) ≤ k) :
    ∃ m, n ≤ m ∧ (exec cpus sched (start work) m).pc = Pc.returned false := by
  induction k generalizing n with
  | zero =>
    have h0 : pcLeft (exec cpus sched (start work) n).pc = 0 := by
      unfold stepsLeft at hk
      omega
    obtain ⟨b, hb⟩ := pcLeft_eq_zero _ h0
    cases b with
    | false => exact ⟨n, le_refl n, hb⟩
    | true => exact absurd hb (exec_not_failed cpus work sched hsam n)
  | succ k ih =>
    by_cases hret : ∃ b, (exec cpus sched (start work) n).pc = Pc.returned b
    · obtain ⟨b, hb⟩ := hret
      cases b with
      | false => exact ⟨n, le_refl n, hb⟩
      | true => exact absurd hb (exec_not_failed cpus work sched hsam n)
    · have hpc : ∀ b, (exec cpus sched (start work) n).pc ≠ Pc.returned b :=
        fun b hb => hret ⟨b, hb⟩
      obtain ⟨m, hnm, hlt⟩ := exec_progress cpus work sched hu hb hl n hpc
      obtain ⟨m2, hm2, hfin⟩ := ih m (by omega)
      exact ⟨m2, by omega, hfin⟩

/-- C2 (amended): in every execution in which every load-average sample is obtained,
polls that sample a load of at most 2 times the CPU count come again and again, every
call of `Build` returns (with or without an error) and the Go scheduler starves no
goroutine, the loop of `toolBuild` returns nil, and when it has returned a goroutine
was started for every entry of the job set, once each, and every call of `Build` has
returned. At no point of the execution has it returned an error, and the goroutines
started are always entries of the job set, each started at most once. -/
theorem toolBuild_builds_every_entry (cpus : Int) (work : List (GoString × Tool))
    (sched : Nat → Event) (hsam : Sampled sched) (hl : LoadOften cpus sched)
    (hb : BuildsReturn sched work.length) (hu : Unstarved sched work.length) :
    (∃ n, (exec cpus sched (start work) n).pc = Pc.returned false ∧
      launched (exec cpus sched (start work) n) = work ∧
      inBuild (exec cpus sched (start work) n) = 0) ∧
    (∀ n, (exec cpus sched (start work) n).pc ≠ Pc.returned true) ∧
    (∀ n, launched (exec cpus sched (start work) n)
      ++ (exec cpus sched (start work) n).pending = work) := by
  refine ⟨?_, exec_not_failed cpus work sched hsam, ?_⟩
  · obtain ⟨m, _, hm⟩ := exec_returns cpus work sched hu hb hsam hl _ 0 (le_refl _)
    have hj := returned_nil_joined cpus work _ (exec_reachable cpus work sched m) hm
    exact ⟨m, hm, hj.2.2, hj.2.1⟩
  · intro n
    exact (Inv_reachable cpus work _ (exec_reachable cpus work sched n)).entries

/-! ### Executions in which the loop does not return -/

theorem cycle_often (round : List Event) (k : Nat) (hk : k < round.length)
    (P : Event → Prop) (hP : P (round.getD k Event.wait)) : Often (cycle round) P := by
  intro n
  have hpos : 0 < round.length := by omega
  have hle : n ≤ round.length * n := Nat.le_mul_of_pos_left n hpos
  refine ⟨round.length * n + k, by omega, ?_⟩
  show P (round.getD ((round.length * n + k) % round.length) Event.wait)
  rw [Nat.mul_add_mod, Nat.mod_eq_of_lt hk]
  exact hP

theorem cycle_all (round : List Event) (P : Event → Prop) (hne : round ≠ [])
    (h : ∀ e, e ∈ round → P e) (n : Nat) : P (cycle round n) := by
  have hlt : n % round.length < round.length := Nat.mod_lt n (List.length_pos.mpr hne)
  unfold cycle
  rw [List.getD_eq_getElem round Event.wait hlt]
  exact h _ (List.getElem_mem hlt)

theorem step_not_returned (cpus : Int) (s s2 : Sched) (e : Event)
    (h : step cpus s e = some s2) (he : e ≠ Event.wait)
    (hpc : s.pc ≠ Pc.returned false) : s2.pc ≠ Pc.returned false := by
  cases e with
  | avg load =>
    simp only [step] at h
    split at h
    · cases load with
      | none =>
        simp only [Option.some.injEq] at h
        subst h
        simp
      | some l =>
        simp only at h
        split at h
        · simp only [Option.some.injEq] at h
          subst h
          simp
        · simp only [Option.some.injEq] at h
          subst h
          exact hpc
    · simp at h
  | inc =>
    simp only [step] at h
    split at h
    · simp only [Option.some.injEq] at h
      subst h
      simp
    · simp at h
  | add =>
    simp only [step] at h
    split at h
    · simp only [Option.some.injEq] at h
      subst h
      simp
    · simp at h
  | spawn =>
    simp only [step] at h
    split at h
    · split at h
      · simp at h
      · simp only [Option.some.injEq] at h
        subst h
        dsimp only
        split <;> simp
    · simp at h
  | wait => exact absurd rfl he
  | buildReturns i err =>
    simp only [step] at h
    split at h
    · simp only [Option.some.injEq] at h
      subst h
      exact hpc
    · simp at h
  | done i =>
    simp only [step] at h
    split at h
    · simp only [Option.some.injEq] at h
      subst h
      exact hpc
    · simp at h
  | dec i =>
    simp only [step] at h
    split at h
    · simp only [Option.some.injEq] at h
      subst h
      exact hpc
    · simp at h

/-- When the return of `waitgroup.Wait()` is never scheduled, `toolBuild` never returns
nil. -/
theorem starved_never_returns (cpus : Int) (work : List (GoString × Tool))
    (sched : Nat → Event) (hnever : ∀ n, sched n ≠ Event.wait) (n : Nat) :
    (exec cpus sched (start work) n).pc ≠ Pc.returned false := by
  induction n with
  | zero =>
    show (start work).pc ≠ Pc.returned false
    unfold start
    dsimp only
    split <;> simp
  | succ k ih =>
    show (next cpus (exec cpus sched (start work) k) (sched k)).pc ≠ Pc.returned false
    unfold next
    cases hstep : step cpus (exec cpus sched (start work) k) (sched k) with
    | none => exact ih
    | some s2 => exact step_not_returned cpus _ s2 _ hstep (hnever k) ih

theorem advance_head (p q : Phase) (i : Nat) (js js2 : List Job)
    (h : advance p q i js = some js2)
    (hkeep : ∀ j, js[0]? = some j → j.phase ≠ p ∨ i ≠ 0) : js2[0]? = js[0]? := by
  cases js with
  | nil => simp [advance] at h
  | cons a rest =>
    cases i with
    | zero =>
      simp only [advance] at h
      split at h
      · rename_i hp
        rcases hkeep a (by simp) with h1 | h1
        · exact absurd hp h1
        · exact absurd rfl h1
      · simp at h
    | succ k =>
      simp only [advance, Option.map_eq_some'] at h
      obtain ⟨js3, _, rfl⟩ := h
      simp

theorem step_first_building (cpus : Int) (s s2 : Sched) (e : Event)
    (h : step cpus s e = some s2) (he : ∀ err, e ≠ Event.buildReturns 0 err)
    (hQ : ∀ j, s.jobs[0]? = some j → j.phase = Phase.building) :
    ∀ j, s2.jobs[0]? = some j → j.phase = Phase.building := by
  have hkeep : ∀ (p : Phase) (i : Nat), p ≠ Phase.building →
      ∀ j, s.jobs[0]? = some j → j.phase ≠ p ∨ i ≠ 0 := by
    intro p i hp j hj
    left
    rw [hQ j hj]
    exact fun hh => hp hh.symm
  cases e with
  | avg load =>
    simp only [step] at h
    split at h
    · cases load with
      | none =>
        simp only [Option.some.injEq] at h
        subst h
        exact hQ
      | some l =>
        simp only at h
        split at h
        · simp only [Option.some.injEq] at h
          subst h
          exact hQ
        · simp only [Option.some.injEq] at h
          subst h
          exact hQ
    · simp at h
  | inc =>
    simp only [step] at h
    split at h
    · simp only [Option.some.injEq] at h
      subst h
      exact hQ
    · simp at h
  | add =>
    simp only [step] at h
    split at h
    · simp only [Option.some.injEq] at h
      subst h
      exact hQ
    · simp at h
  | spawn =>
    simp only [step] at h
    split at h
    · split at h
      · simp at h
      · simp only [Option.some.injEq] at h
        subst h
        intro j hj
        dsimp only at hj
        cases hjobs : s.jobs with
        | nil =>
          rw [hjobs] at hj
          simp only [List.nil_append, List.getElem?_cons_zero, Option.some.injEq] at hj
          rw [← hj]
        | cons a rest =>
          rw [hjobs] at hj
          simp only [List.cons_append, List.getElem?_cons_zero, Option.some.injEq] at hj
          exact hQ j (by rw [hjobs, ← hj]; simp)
    · simp at h
  | wait =>
    simp only [step] at h
    split at h
    · simp only [Option.some.injEq] at h
      subst h
      exact hQ
    · simp at h
  | buildReturns i err =>
    simp only [step] at h
    split at h
    · rename_i js j0 hadv hj0
      simp only [Option.some.injEq] at h
      subst h
      have hi : i ≠ 0 := fun hi0 => he err (by rw [hi0])
      have hhead := advance_head _ _ i s.jobs js hadv (fun j _ => Or.inr hi)
      intro j hj
      exact hQ j (by rw [← hhead]; exact hj)
    · simp at h
  | done i =>
    simp only [step] at h
    split at h
    · rename_i js hadv
      simp only [Option.some.injEq] at h
      subst h
      have hhead := advance_head _ _ i s.jobs js hadv (hkeep Phase.built i (by decide))
      intro j hj
      exact hQ j (by rw [← hhead]; exact hj)
    · simp at h
  | dec i =>
    simp only [step] at h
    split at h
    · rename_i js hadv
      simp only [Option.some.injEq] at h
      subst h
      have hhead := advance_head _ _ i s.jobs js hadv (hkeep Phase.signalled i (by decide))
      intro j hj
      exact hQ j (by rw [← hhead]; exact hj)
    · simp at h

/-- When the call of `Build` of the first goroutine never returns, `toolBuild` never
returns nil for a job set that is not empty. -/
theorem hung_build_never_returns (cpus : Int) (work : List (GoString × Tool))
    (sched : Nat → Event) (hne : work ≠ [])
    (hnever : ∀ n err, sched n ≠ Event.buildReturns 0 err) (n : Nat) :
    (exec cpus sched (start work) n).pc ≠ Pc.returned false := by
  have hQ : ∀ k j, (exec cpus sched (start work) k).jobs[0]? = some j →
      j.phase = Phase.building := by
    intro k
    induction k with
    | zero =>
      intro j hj
      simp [exec, start] at hj
    | succ k ih =>
      show ∀ j, (next cpus (exec cpus sched (start work) k) (sched k)).jobs[0]? = some j →
        j.phase = Phase.building
      unfold next
      cases hstep : step cpus (exec cpus sched (start work) k) (sched k) with
      | none => exact ih
      | some s2 => exact step_first_building cpus _ s2 _ hstep (hnever k) ih
  intro hret
  obtain ⟨_, hb, hl⟩ := returned_nil_joined cpus work _ (exec_reachable cpus work sched n) hret
  cases hjobs : (exec cpus sched (start work) n).jobs with
  | nil =>
    rw [launched, hjobs] at hl
    exact hne hl.symm
  | cons a rest =>
    have ha := hQ n a (by rw [hjobs]; simp)
    rw [inBuild, hjobs] at hb
    simp [ha] at hb

theorem exSchedule_unstarved (l : ℚ) : Unstarved (exSchedule l) 3 := by
  have hlen : (exRound l).length = 14 := rfl
  refine ⟨cycle_often _ 1 (by omega) _ rfl, cycle_often _ 2 (by omega) _ rfl,
    cycle_often _ 3 (by omega) _ rfl, cycle_often _ 13 (by omega) _ rfl, ?_, ?_⟩
  · intro i hi
    interval_cases i
    · exact cycle_often _ 5 (by omega) _ rfl
    · exact cycle_often _ 8 (by omega) _ rfl
    · exact cycle_often _ 11 (by omega) _ rfl
  · intro i hi
    interval_cases i
    · exact cycle_often _ 6 (by omega) _ rfl
    · exact cycle_often _ 9 (by omega) _ rfl
    · exact cycle_often _ 12 (by omega) _ rfl

theorem exSchedule_buildsReturn (l : ℚ) : BuildsReturn (exSchedule l) 3 := by
  have hlen : (exRound l).length = 14 := rfl
  intro i hi
  interval_cases i
  · exact cycle_often _ 4 (by omega) _ ⟨false, rfl⟩
  · exact cycle_often _ 7 (by omega) _ ⟨true, rfl⟩
  · exact cycle_often _ 10 (by omega) _ ⟨false, rfl⟩

theorem exSchedule_sampled (l : ℚ) : Sampled (exSchedule l) := by
  refine cycle_all (exRound l) (fun e => e ≠ Event.avg none) (by simp [exRound]) ?_
  intro e he heq
  subst heq
  simp [exRound] at he

theorem exSchedule_blocked (n : Nat) :
    next 1 (start exThree) (exSchedule 3 n) = start exThree := by
  refine cycle_all (exRound 3) (fun e => next 1 (start exThree) e = start exThree)
    (by simp [exRound]) ?_ n
  intro e he
  simp only [exRound, List.mem_cons, List.mem_singleton, List.not_mem_nil, or_false] at he
  rcases he with rfl | rfl | rfl | rfl | rfl | rfl | rfl | rfl | rfl | rfl | rfl | rfl |
    rfl | rfl <;> decide!

theorem exHung_unstarved : Unstarved (cycle exHungRound) 3 := by
  have hlen : exHungRound.length = 13 := rfl
  refine ⟨cycle_often _ 1 (by omega) _ rfl, cycle_often _ 2 (by omega) _ rfl,
    cycle_often _ 3 (by omega) _ rfl, cycle_often _ 12 (by omega) _ rfl, ?_, ?_⟩
  · intro i hi
    interval_cases i
    · exact cycle_often _ 4 (by omega) _ rfl
    · exact cycle_often _ 7 (by omega) _ rfl
    · exact cycle_often _ 10 (by omega) _ rfl
  · intro i hi
    interval_cases i
    · exact cycle_often _ 5 (by omega) _ rfl
    · exact cycle_often _ 8 (by omega) _ rfl
    · exact cycle_often _ 11 (by omega) _ rfl

theorem exStarved_buildsReturn : BuildsReturn (cycle exStarvedRound) 3 := by
  have hlen : exStarvedRound.length = 13 := rfl
  intro i hi
  interval_cases i
  · exact cycle_often _ 4 (by omega) _ ⟨false, rfl⟩
  · exact cycle_often _ 7 (by omega) _ ⟨true, rfl⟩
  · exact cycle_often _ 10 (by omega) _ ⟨false, rfl⟩

/-- C2 (counterexample): three executions with one CPU and three tools in which every
load-average sample is obtained and `toolBuild` never returns. In the first, every
call of `Build` would return and no goroutine is starved, but every poll samples the
load 3: the loop never leaves its start state, no goroutine is started and `Build` is
not invoked for any entry. In the second the load is zero and no goroutine is starved,
but the `Build` of the first tool never returns. In the third the load is zero and
every call of `Build` returns, but the dispatcher is never scheduled again once it
waits at `waitgroup.Wait()`. -/
theorem toolBuild_does_not_return :
    (Sampled (exSchedule 3) ∧ BuildsReturn (exSchedule 3) exThree.length ∧
      Unstarved (exSchedule 3) exThree.length ∧
      (∀ n, exec 1 (exSchedule 3) (start exThree) n = start exThree) ∧
      launched (start exThree) = [] ∧
      ¬ ∃ n, (exec 1 (exSchedule 3) (start exThree) n).pc = Pc.returned false) ∧
    (Sampled (cycle exHungRound) ∧ LoadOften 1 (cycle exHungRound) ∧
      Unstarved (cycle exHungRound) exThree.length ∧
      ¬ ∃ n, (exec 1 (cycle exHungRound) (start exThree) n).pc = Pc.returned false) ∧
    (Sampled (cycle exStarvedRound) ∧ LoadOften 1 (cycle exStarvedRound) ∧
      BuildsReturn (cycle exStarvedRound) exThree.length ∧
      ¬ ∃ n, (exec 1 (cycle exStarvedRound) (start exThree) n).pc = Pc.returned false) := by
  have hstay : ∀ n, exec 1 (exSchedule 3) (start exThree) n = start exThree := by
    intro n
    induction n with
    | zero => rfl
    | succ k ih =>
      show next 1 (exec 1 (exSchedule 3) (start exThree) k) (exSchedule 3 k) = _
      rw [ih]
      exact exSchedule_blocked k
  have hsamHung : Sampled (cycle exHungRound) := by
    refine cycle_all exHungRound (fun e => e ≠ Event.avg none) (by simp [exHungRound]) ?_
    intro e he heq
    subst heq
    simp [exHungRound] at he
  have hsamStarved : Sampled (cycle exStarvedRound) := by
    refine cycle_all exStarvedRound (fun e => e ≠ Event.avg none)
      (by simp [exStarvedRound]) ?_
    intro e he heq
    subst heq
    simp [exStarvedRound] at he
  have hneverBuild : ∀ n err, cycle exHungRound n ≠ Event.buildReturns 0 err := by
    intro n err
    refine cycle_all exHungRound (fun e => e ≠ Event.buildReturns 0 err)
      (by simp [exHungRound]) ?_ n
    intro e he heq
    subst heq
    simp [exHungRound] at he
  have hneverWait : ∀ n, cycle exStarvedRound n ≠ Event.wait := by
    refine cycle_all exStarvedRound (fun e => e ≠ Event.wait) (by simp [exStarvedRound]) ?_
    intro e he heq
    subst heq
    simp [exStarvedRound] at he
  have hloadHung : LoadOften 1 (cycle exHungRound) :=
    cycle_often exHungRound 0 (by decide) _ ⟨0, rfl, by norm_num⟩
  have hloadStarved : LoadOften 1 (cycle exStarvedRound) :=
    cycle_often exStarvedRound 0 (by decide) _ ⟨0, rfl, by norm_num⟩
  refine ⟨⟨exSchedule_sampled 3, exSchedule_buildsReturn 3, exSchedule_unstarved 3, hstay,
    rfl, ?_⟩, ⟨hsamHung, hloadHung, exHung_unstarved, ?_⟩,
    ⟨hsamStarved, hloadStarved, exStarved_buildsReturn, ?_⟩⟩
  · rintro ⟨n, hn⟩
    rw [hstay n] at hn
    revert hn
    decide
  · rintro ⟨n, hn⟩
    exact hung_build_never_returns 1 exThree (cycle exHungRound) (by decide) hneverBuild n hn
  · rintro ⟨n, hn⟩
    exact starved_never_returns 1 exThree (cycle exStarvedRound) hneverWait n hn

/-- Three tools under the round-robin schedule with a load of zero and one CPU, where
the `Build` of the second tool fails: after three rounds `toolBuild` has returned nil,
all three tools were built, and the failure was logged once. -/
theorem toolBuild_builds_every_entry_witness :
    Sampled (exSchedule 0) ∧ LoadOften 1 (exSchedule 0) ∧
    BuildsReturn (exSchedule 0) exThree.length ∧ Unstarved (exSchedule 0) exThree.length ∧
    exec 1 (exSchedule 0) (start exThree) 42 = exDone ∧
    ((∃ n, (exec 1 (exSchedule 0) (start exThree) n).pc = Pc.returned false ∧
      launched (exec 1 (exSchedule 0) (start exThree) n) = exThree ∧
      inBuild (exec 1 (exSchedule 0) (start exThree) n) = 0) ∧
    (∀ n, (exec 1 (exSchedule 0) (start exThree) n).pc ≠ Pc.returned true) ∧
    (∀ n, launched (exec 1 (exSchedule 0) (start exThree) n)
      ++ (exec 1 (exSchedule 0) (start exThree) n).pending = exThree)) :=
  have hl : LoadOften 1 (exSchedule 0) :=
    cycle_often (exRound 0) 0 (by decide) _ ⟨0, rfl, by norm_num⟩
  ⟨exSchedule_sampled 0, hl, exSchedule_buildsReturn 0, exSchedule_unstarved 0, by decide!,
    toolBuild_builds_every_entry 1 exThree (exSchedule 0) (exSchedule_sampled 0) hl
      (exSchedule_buildsReturn 0) (exSchedule_unstarved 0)⟩

end Gtb
